import Mathlib

/-!
lib_tar: a read-only accessor for USTAR archives

Shallow embedding of `skeleton/lib_tar.c` and the properties of its
operations `check_archive`, `exists`, `is_file`, `is_dir`, `is_symlink`,
`list` and `read_file`.

Conventions of the embedding.

* A byte is a `Nat` (streams hold values below 256); a buffer or a region
  of memory is the `List Nat` of the bytes from a pointer onwards. Memory
  past the end of a modelled buffer reads as NUL.
* A descriptor `Fd` is a regular file: its bytes, its current offset and a
  predicate telling at which offsets `read` fails (returns -1). A `read`
  that does not fail transfers the bytes that the file holds from the
  current offset, up to the count asked for, and returns 0 at the end.
* A local buffer that the C code does not initialise is an argument of the
  function: its content is arbitrary.
* `unsigned int` is arithmetic modulo `2^32`, `size_t` modulo `2^64`,
  `off_t`, `ssize_t` and `long` are 64-bit two's complement (LP64).
* Loops take a fuel argument; `none` means that the run has no defined
  result within the fuel: it is still looping, or it has hit a signed
  overflow of an `int`.
-/

namespace LibTar

/-! ## Descriptors and the system calls used by the library -/

/-- An open descriptor on a regular file. -/
structure Fd where
  /-- The bytes of the file. -/
  data : List Nat
  /-- Offsets at which `read` fails. -/
  err : Nat → Bool
  /-- The current offset. -/
  pos : Nat

/-- Storing `bs` at the start of the buffer `buf`; the rest of the buffer is kept. -/
def overwrite (buf bs : List Nat) : List Nat :=
  bs ++ buf.drop bs.length

/-- The call `read(fd, buf, count)`: the result (-1 or the number of bytes),
the buffer and the descriptor afterwards. -/
def read (fd : Fd) (buf : List Nat) (count : Nat) : Int × List Nat × Fd :=
  if fd.err fd.pos then (-1, buf, fd)
  else
    let bs := (fd.data.drop fd.pos).take count
    ((bs.length : Int), overwrite buf bs, { fd with pos := fd.pos + bs.length })

/-- Conversion of a 64-bit pattern to the signed `off_t` / `ssize_t`. -/
def toSigned64 (v : Int) : Int :=
  if v % 18446744073709551616 < 9223372036854775808 then v % 18446744073709551616
  else v % 18446744073709551616 - 18446744073709551616

/-- Conversion to `size_t`. -/
def toSizeT (v : Int) : Nat := (v % 18446744073709551616).toNat

/-- Conversion to `unsigned int`. -/
def toUInt (v : Int) : Nat := (v % 4294967296).toNat

/-- The call `lseek(fd, offset, SEEK_CUR)` with a `size_t` argument: the
argument is converted to `off_t`; a resulting offset that is negative or
not representable makes the call fail and leaves the offset unchanged. -/
def lseek_cur (fd : Fd) (offset : Nat) : Fd :=
  let np : Int := (fd.pos : Int) + toSigned64 (offset : Int)
  if 0 ≤ np ∧ np < 9223372036854775808 then { fd with pos := np.toNat } else fd

/-- The call `lseek(fd, offset, SEEK_SET)`. -/
def lseek_set (fd : Fd) (offset : Nat) : Fd :=
  { fd with pos := offset }

/-! ## C strings -/

/-- `strncmp a b n == 0`. -/
def strncmp_eq : Nat → List Nat → List Nat → Bool
  | 0, _, _ => true
  | n + 1, a, b =>
    if a.headD 0 ≠ b.headD 0 then false
    else if a.headD 0 = 0 then true
    else strncmp_eq n a.tail b.tail

/-- `strcmp a b == 0`. -/
def strcmp_eq : List Nat → List Nat → Bool
  | [], [] => true
  | [], y :: _ => y == 0
  | x :: _, [] => x == 0
  | x :: a, y :: b =>
    if x ≠ y then false
    else if x = 0 then true
    else strcmp_eq a b

/-- `memcmp a b n == 0`. -/
def memcmp_eq (a b : List Nat) (n : Nat) : Bool :=
  a.take n == b.take n

/-- The predicate `isspace` of the C locale. -/
def isspace (c : Nat) : Bool :=
  c == 32 || (9 ≤ c && c ≤ 13)

/-- Octal digits. -/
def isodigit (c : Nat) : Bool :=
  48 ≤ c && c ≤ 55

/-- The value of a run of octal digits. -/
def octalValue (ds : List Nat) : Nat :=
  ds.foldl (fun acc c => acc * 8 + (c - 48)) 0

/-- `strtol(s, NULL, 8)`: leading white space, an optional sign, then the
longest run of octal digits; the result is clamped to the range of `long`. -/
def strtol8 (s : List Nat) : Int :=
  let s1 := s.dropWhile isspace
  let neg := s1.headD 0 == 45
  let s2 := if s1.headD 0 == 45 || s1.headD 0 == 43 then s1.tail else s1
  let v := octalValue (s2.takeWhile isodigit)
  if neg then
    (if 9223372036854775808 < v then -9223372036854775808 else -(v : Int))
  else
    (if 9223372036854775808 ≤ v then 9223372036854775807 else (v : Int))

/-! ## The header layout of `lib_tar.h` -/

/-- The size of a block and of `tar_header_t`. -/
def BLOCK_SIZE : Nat := 512

/-- Modelled from the spec: the constant `TMAGIC` of `lib_tar.h` (absent from
the sources), the tag "ustar" and a NUL. -/
def TMAGIC : List Nat := [117, 115, 116, 97, 114, 0]

/-- Modelled from the spec: the constant `TMAGLEN` of `lib_tar.h`, the width
of the magic field (5-byte magic and a NUL). -/
def TMAGLEN : Nat := 6

/-- Modelled from the spec: the constant `TVERSION` of `lib_tar.h`, "00"
with no trailing NUL in the field. -/
def TVERSION : List Nat := [48, 48, 0]

/-- Modelled from the spec: the constant `TVERSLEN` of `lib_tar.h`, the width
of the version field. -/
def TVERSLEN : Nat := 2

/-- Modelled from the spec: type flag of a regular file, the character 0. -/
def REGTYPE : Nat := 48

/-- Modelled from the spec: the legacy alias of a regular file, NUL. -/
def AREGTYPE : Nat := 0

/-- Modelled from the spec: type flag of a hard link, the character 1. -/
def LNKTYPE : Nat := 49

/-- Modelled from the spec: type flag of a symbolic link, the character 2. -/
def SYMTYPE : Nat := 50

/-- Modelled from the spec: type flag of a directory, the character 5. -/
def DIRTYPE : Nat := 53

/-- Modelled from the spec: the field `name` of `tar_header_t` (the type is
declared in `lib_tar.h`, absent from the sources), at offset 0. -/
def name (header : List Nat) : List Nat := header

/-- Modelled from the spec: the field `size` of `tar_header_t`, at offset 124. -/
def size (header : List Nat) : List Nat := header.drop 124

/-- Modelled from the spec: the field `chksum` of `tar_header_t`, the 8 bytes
at offsets 148..155. -/
def chksum (header : List Nat) : List Nat := header.drop 148

/-- Modelled from the spec: the field `typeflag` of `tar_header_t`, the
single byte at offset 156. -/
def typeflag (header : List Nat) : Nat := header.getD 156 0

/-- Modelled from the spec: the field `magic` of `tar_header_t`, at offset 257. -/
def magic (header : List Nat) : List Nat := header.drop 257

/-- Modelled from the spec: the field `version` of `tar_header_t`, at offset 263. -/
def version (header : List Nat) : List Nat := header.drop 263

/-- Modelled from the spec: the macro `TAR_INT` of `lib_tar.h` (absent from
the sources), the decoder of an octal numeric string, `strtol(p, NULL, 8)`. -/
def TAR_INT (p : List Nat) : Int := strtol8 p

/-- Modelled from the spec: the helper `next_header` called by `exists` is
defined nowhere in the sources; the Entry Locator reads 512-byte blocks
directly and does not skip content blocks, so the call leaves the
descriptor where it is. -/
def next_header (tar_fd : Fd) (_current_header : List Nat) : Fd := tar_fd

/-! ## Auxiliary functions -/

/-- The loop of `compute_checksum`: `i` is the index of the head of `bytes`. -/
def checksum_loop : List Nat → Nat → Nat → Nat
  | [], _, sum => sum
  | b :: bytes, i, sum =>
    checksum_loop bytes (i + 1)
      (if 148 ≤ i ∧ i < 156 then (sum + 32) % 4294967296 else (sum + b) % 4294967296)

/-- `compute_checksum`: the sum of the bytes of the header, the bytes of the
`chksum` field counted as spaces, in `unsigned int`. -/
def compute_checksum (header : List Nat) : Nat :=
  checksum_loop (header.take BLOCK_SIZE) 0 0

/-- `read_next_header`: 0 on success, -1 on end of archive, -2 on a read
error; with the header buffer and the descriptor afterwards. -/
def read_next_header (tar_fd : Fd) (header : List Nat) : Int × List Nat × Fd :=
  let r := read tar_fd header BLOCK_SIZE
  if r.1 = 0 then (-1, r.2.1, r.2.2)
  else if r.1 < 0 then (-2, r.2.1, r.2.2)
  else if r.1 ≠ (BLOCK_SIZE : Int) ∨ (name r.2.1).headD 0 = 0 then (-1, r.2.1, r.2.2)
  else (0, r.2.1, r.2.2)

/-! ## check_archive -/

/-- The skip of the content of a regular file in `check_archive`. -/
def skip_data (tar_fd : Fd) (header : List Nat) : Fd :=
  if typeflag header = REGTYPE ∨ typeflag header = AREGTYPE then
    let file_size := toSizeT (TAR_INT (size header))
    let blocks_to_skip := ((file_size + BLOCK_SIZE - 1) % 18446744073709551616) / BLOCK_SIZE
    lseek_cur tar_fd ((blocks_to_skip * BLOCK_SIZE) % 18446744073709551616)
  else tar_fd

/-- The loop of `check_archive`; `header` is the header buffer and
`header_count` the running count, an `int`. -/
def check_archive_loop : Nat → Fd → List Nat → Int → Option (Int × Fd)
  | 0, _, _, _ => none
  | fuel + 1, tar_fd, header, header_count =>
    let r := read_next_header tar_fd header
    if r.1 = -1 then some (header_count, r.2.2)
    else if r.1 = -2 then some (-3, r.2.2)
    else if strncmp_eq TMAGLEN (magic r.2.1) TMAGIC = false then some (-1, r.2.2)
    else if strncmp_eq TVERSLEN (version r.2.1) TVERSION = false then some (-2, r.2.2)
    else if toUInt (TAR_INT (chksum r.2.1)) ≠ compute_checksum r.2.1 then some (-3, r.2.2)
    else if 2147483647 ≤ header_count then none
    else check_archive_loop fuel (skip_data r.2.2 r.2.1) r.2.1 (header_count + 1)

/-- `check_archive`; `header` is the initial content of the local header
buffer, which the function does not initialise. -/
def check_archive (fuel : Nat) (tar_fd : Fd) (header : List Nat) : Option (Int × Fd) :=
  check_archive_loop fuel tar_fd header 0

/-! ## exists and the predicates derived from it -/

/-- The block of 512 NUL bytes. -/
def null_block : List Nat := List.replicate 512 0

/-- The `switch` on the type flag in `exists`; a type flag outside the five
cases leaves the `switch`, then the loop, and the function returns 0. -/
def classify (flag : Nat) : Int :=
  if flag = REGTYPE ∨ flag = AREGTYPE then 1
  else if flag = DIRTYPE then 2
  else if flag = LNKTYPE then 3
  else if flag = SYMTYPE then 4
  else 0

/-- The loop of `exists`; a failing `read` makes the function return `EOF`,
which is -1. -/
def exists_loop (path : List Nat) : Nat → Fd → List Nat → Nat → Option (Int × Fd)
  | 0, _, _, _ => none
  | fuel + 1, tar_fd, current_header, null_block_count =>
    if ¬ null_block_count < 2 then some (0, tar_fd)
    else
      let r := read tar_fd current_header 512
      if r.1 = -1 then some (-1, r.2.2)
      else if memcmp_eq r.2.1 null_block 512 then
        exists_loop path fuel r.2.2 r.2.1 (null_block_count + 1)
      else if strcmp_eq path (name r.2.1) then some (classify (typeflag r.2.1), r.2.2)
      else exists_loop path fuel (next_header r.2.2 r.2.1) r.2.1 0

/-- `exists`; `current_header` is the initial content of the local header
buffer, which the function does not initialise. -/
def exists_ (fuel : Nat) (tar_fd : Fd) (current_header : List Nat) (path : List Nat) :
    Option (Int × Fd) :=
  exists_loop path fuel (lseek_set tar_fd 0) current_header 0

/-- The value of a C comparison as an `int`. -/
def boolToInt (b : Bool) : Int := if b then 1 else 0

/-- `is_dir`. -/
def is_dir (fuel : Nat) (tar_fd : Fd) (current_header : List Nat) (path : List Nat) :
    Option (Int × Fd) :=
  (exists_ fuel tar_fd current_header path).map (fun r => (boolToInt (r.1 == 2), r.2))

/-- `is_file`. -/
def is_file (fuel : Nat) (tar_fd : Fd) (current_header : List Nat) (path : List Nat) :
    Option (Int × Fd) :=
  (exists_ fuel tar_fd current_header path).map (fun r => (boolToInt (r.1 == 1), r.2))

/-- `is_symlink`. -/
def is_symlink (fuel : Nat) (tar_fd : Fd) (current_header : List Nat) (path : List Nat) :
    Option (Int × Fd) :=
  (exists_ fuel tar_fd current_header path).map (fun r => (boolToInt (r.1 == 4), r.2))

/-! ## read_file -/

/-- What `read_file` leaves behind: the return value, the destination
buffer, `*len` and the descriptor. -/
structure ReadFileResult where
  ret : Int
  dest : List Nat
  len : Nat
  fd : Fd

/-- The loop of `read_file`. -/
def read_file_loop (path : List Nat) (offset : Nat) (dest : List Nat) (len : Nat) :
    Nat → Fd → List Nat → Option ReadFileResult
  | 0, _, _ => none
  | fuel + 1, tar_fd, header =>
    let r := read_next_header tar_fd header
    if r.1 = -1 then some ⟨-1, dest, len, r.2.2⟩
    else if r.1 = -2 then some ⟨-1, dest, len, r.2.2⟩
    else if strcmp_eq (name r.2.1) path ∧
        (typeflag r.2.1 = REGTYPE ∨ typeflag r.2.1 = AREGTYPE) then
      let file_size := toSizeT (TAR_INT (size r.2.1))
      if offset ≥ file_size then some ⟨-2, dest, len, r.2.2⟩
      else
        let to_read := if file_size - offset > len then len else file_size - offset
        let rd := read (lseek_cur r.2.2 offset) dest to_read
        some ⟨toSigned64 ((file_size : Int) - (offset : Int) - rd.1), rd.2.1,
          toSizeT rd.1, rd.2.2⟩
    else read_file_loop path offset dest len fuel r.2.2 r.2.1

/-- `read_file`; `header` is the initial content of the local header buffer. -/
def read_file (fuel : Nat) (tar_fd : Fd) (header : List Nat) (path : List Nat)
    (offset : Nat) (dest : List Nat) (len : Nat) : Option ReadFileResult :=
  read_file_loop path offset dest len fuel tar_fd header



/-! ## list -/

/-- `strlen`. -/
def strlen : List Nat → Nat
  | [] => 0
  | c :: s => if c = 0 then 0 else strlen s + 1

/-- The `n` bytes that `strncpy(dest, src, n)` stores: the characters of
`src` up to its NUL, then NUL bytes up to `n` bytes. -/
def strncpy_bytes : Nat → List Nat → List Nat
  | 0, _ => []
  | n + 1, src =>
    if src.headD 0 = 0 then List.replicate (n + 1) 0
    else src.headD 0 :: strncpy_bytes n src.tail

/-- The two statements that store a name in an output slot of `list`:
`strncpy(entries[count], header.name, 100)` and `entries[count][99] = 0`. -/
def store_name (slot nm : List Nat) : List Nat :=
  (overwrite slot (strncpy_bytes 100 nm)).set 99 0

/-- What `list` leaves behind: the return value, the output slots,
`*no_entries` and the descriptor. -/
structure ListResult where
  ret : Int
  entries : List (List Nat)
  no_entries : Nat
  fd : Fd

/-- The loop of `list`; `no_entries` is the incoming `*no_entries`, which a
read error leaves as it is. -/
def list_loop (path : List Nat) (no_entries : Nat) :
    Nat → Fd → List Nat → List (List Nat) → Nat → Option ListResult
  | 0, _, _, _, _ => none
  | fuel + 1, tar_fd, header, entries, count =>
    let r := read_next_header tar_fd header
    if r.1 = -1 then some ⟨if count > 0 then 1 else 0, entries, count, r.2.2⟩
    else if r.1 = -2 then some ⟨0, entries, no_entries, r.2.2⟩
    else if strncmp_eq (strlen path) (name r.2.1) path = true then
      if count < no_entries then
        list_loop path no_entries fuel r.2.2 r.2.1
          (entries.set count (store_name (entries.getD count []) (name r.2.1))) (count + 1)
      else list_loop path no_entries fuel r.2.2 r.2.1 entries count
    else list_loop path no_entries fuel r.2.2 r.2.1 entries count

/-- `list`; `header` is the initial content of the local header buffer,
`entries` the output slots and `no_entries` the incoming `*no_entries`. -/
def list (fuel : Nat) (tar_fd : Fd) (header : List Nat) (path : List Nat)
    (entries : List (List Nat)) (no_entries : Nat) : Option ListResult :=
  list_loop path no_entries fuel tar_fd header entries 0
/-! ## Well-formed archives -/

/-- The magic field holds "ustar" and a NUL. -/
abbrev magicOk (h : List Nat) : Prop := (h.drop 257).take 6 = [117, 115, 116, 97, 114, 0]

/-- The version field holds "00". -/
abbrev versionOk (h : List Nat) : Prop := (h.drop 263).take 2 = [48, 48]

/-- The checksum that the header declares, as `check_archive` decodes it. -/
def declaredChecksum (h : List Nat) : Nat := toUInt (TAR_INT (chksum h))

/-- The size that the header declares, as a `size_t`. -/
def declaredSize (h : List Nat) : Nat := toSizeT (TAR_INT (size h))

/-- The header describes a regular file (either type flag). -/
abbrev isRegular (h : List Nat) : Prop := typeflag h = 48 ∨ typeflag h = 0

/-- A block that `read_next_header` returns as a header: 512 bytes, the
first one not NUL. -/
abbrev isHeaderBlock (h : List Nat) : Prop := h.length = 512 ∧ h.headD 0 ≠ 0

/-- A header that passes the three checks of `check_archive`. -/
abbrev ValidHeader (h : List Nat) : Prop :=
  isHeaderBlock h ∧ magicOk h ∧ versionOk h ∧ declaredChecksum h = compute_checksum h

/-- An entry of an archive: its header block and the content blocks after it. -/
structure Entry where
  hdr : List Nat
  content : List Nat

/-- The number of content bytes after a header: `ceil(size / 512)` blocks
for a regular file, nothing otherwise. -/
def contentLength (h : List Nat) : Nat :=
  if typeflag h = 48 ∨ typeflag h = 0 then 512 * ((declaredSize h + 511) / 512) else 0

/-- A valid header followed by the content blocks it declares. -/
abbrev WellFormedEntry (e : Entry) : Prop :=
  ValidHeader e.hdr ∧ e.content.length = contentLength e.hdr

/-- The bytes of a sequence of entries. -/
def entriesBytes : List Entry → List Nat
  | [] => []
  | e :: es => e.hdr ++ e.content ++ entriesBytes es

/-- The bytes of an archive: its entries, then two all-zero blocks. -/
def archiveBytes (es : List Entry) : List Nat :=
  entriesBytes es ++ List.replicate 1024 0

/-- The bytes of a sequence of blocks. -/
def blocksBytes : List (List Nat) → List Nat
  | [] => []
  | b :: bs => b ++ blocksBytes bs

/-- A block that the scan of `read_file` steps over: a header block that is
not a regular file named `path`. -/
abbrev skippable (path blk : List Nat) : Prop :=
  isHeaderBlock blk ∧ ¬ (strcmp_eq (name blk) path = true ∧ isRegular blk)

/-- The sum that `compute_checksum` accumulates, without the reduction
modulo `2^32`: `i` is the index of the head of the list. -/
def plainSum : List Nat → Nat → Nat
  | [], _ => 0
  | b :: bs, i => (if 148 ≤ i ∧ i < 156 then 32 else b) + plainSum bs (i + 1)

/-- The checksum field holds six octal digits, a NUL and a space. -/
abbrev canonicalChksum (h : List Nat) : Prop :=
  ((chksum h).take 6).length = 6 ∧ (∀ d ∈ (chksum h).take 6, isodigit d = true) ∧
    ((chksum h).drop 6).take 2 = [0, 32]

/-- The characters of a C string: the bytes before its first NUL. -/
def cstr (s : List Nat) : List Nat := s.takeWhile (fun c => c != 0)

/-- The name of the block starts with the characters of `path`. -/
abbrev startsWithPath (path blk : List Nat) : Prop :=
  (name blk).take (cstr path).length = cstr path

/-- The blocks whose name starts with `path`, in order. -/
def matching (path : List Nat) (bs : List (List Nat)) : List (List Nat) :=
  bs.filter (fun b => decide (startsWithPath path b))

/-- The test of `list` on a header block: `strncmp(header.name, path,
strlen(path)) == 0`. -/
def matchesPath (path blk : List Nat) : Bool := strncmp_eq (strlen path) (name blk) path

/-- The end of the scan of `read_next_header`: fewer than 512 bytes are
left, or the next block starts with a NUL byte. -/
abbrev endOfArchive (tail : List Nat) : Prop := tail.length < 512 ∨ tail.headD 0 = 0

/-- The effect of the loop of `list` on the output slots and on the count,
for the header blocks `bs` and the capacity `c`. -/
def fillSlots (path : List Nat) (c : Nat) :
    List (List Nat) → List (List Nat) → Nat → List (List Nat) × Nat
  | [], entries, count => (entries, count)
  | b :: bs, entries, count =>
    if strncmp_eq (strlen path) (name b) path = true ∧ count < c then
      fillSlots path c bs (entries.set count (store_name (entries.getD count []) (name b)))
        (count + 1)
    else fillSlots path c bs entries count

/-- The round trip of the spec, with the descriptor put back at offset 0
before each call: `read_file` is called with the offset 0, then with the
previous offset plus the number of bytes written, in a buffer of capacity
`cap`, until it returns 0; the result is the concatenation of the chunks
written. A negative return value ends the loop without a result. -/
def readAll (fuel : Nat) (fd : Fd) (header path : List Nat) (cap : Nat) :
    Nat → Nat → List Nat → List Nat → Option (List Nat)
  | 0, _, _, _ => none
  | rounds + 1, offset, dest, acc =>
    match read_file fuel (lseek_set fd 0) header path offset dest cap with
    | none => none
    | some r =>
      if r.ret = 0 then some (acc ++ r.dest.take r.len)
      else if r.ret < 0 then none
      else readAll fuel fd header path cap rounds (offset + r.len) r.dest
        (acc ++ r.dest.take r.len)

/-- Two descriptors hold the same bytes from their current offsets on, and
their reads fail at the same places from there. -/
abbrev sameFrom (a b : Fd) : Prop :=
  a.data.drop a.pos = b.data.drop b.pos ∧ ∀ k, a.err (a.pos + k) = b.err (b.pos + k)

/-! ## Sample archives -/

/-- The octal digits of `v`, most significant first, on `w` characters. -/
def octalDigits : Nat → Nat → List Nat
  | 0, _ => []
  | w + 1, v => octalDigits w (v / 8) ++ [48 + v % 8]

/-- Padding with NUL bytes up to `n` bytes. -/
def pad (n : Nat) (l : List Nat) : List Nat := l ++ List.replicate (n - l.length) 0

/-- A header block with the given name, type flag, size and checksum field. -/
def rawHeader (nm : List Nat) (flag : Nat) (sz : Nat) (chk : List Nat) : List Nat :=
  pad 100 nm ++ [48, 48, 48, 48, 54, 52, 52, 0] ++ pad 8 [] ++ pad 8 [] ++
    (octalDigits 11 sz ++ [0]) ++ (octalDigits 11 0 ++ [0]) ++ chk ++ [flag] ++
    List.replicate 100 0 ++ TMAGIC ++ [48, 48] ++ List.replicate 247 0

/-- A header block whose checksum field holds its checksum: six octal
digits, a NUL and a space. -/
def mkHeader (nm : List Nat) (flag : Nat) (sz : Nat) : List Nat :=
  rawHeader nm flag sz
    (octalDigits 6 (compute_checksum (rawHeader nm flag sz (List.replicate 8 32))) ++ [0, 32])

/-- A descriptor on which no `read` fails. -/
def noErr : Nat → Bool := fun _ => false

/-- Some content for a header buffer that was not initialised. -/
def blank : List Nat := List.replicate 512 170

/-- The header of the directory "d/". -/
def dirHeader : List Nat := mkHeader [100, 47] DIRTYPE 0

/-- The header of the regular file "d/f", of 5 bytes. -/
def fileHeader : List Nat := mkHeader [100, 47, 102] REGTYPE 5

/-- The content block of "d/f": "hello" and padding. -/
def fileContent : List Nat := pad 512 [104, 101, 108, 108, 111]

/-- The entries of the sample archive: the directory "d/" and the file "d/f". -/
def sampleEntries : List Entry := [⟨dirHeader, []⟩, ⟨fileHeader, fileContent⟩]

/-- The header of "d/", its version field changed to "10". -/
def badVersionHeader : List Nat := dirHeader.set 263 49

/-- The header of "d/f", the first byte of its magic field changed. -/
def badMagicHeader : List Nat := fileHeader.set 257 85

/-- The 512-byte block number `k` of a stream. -/
def blockAt (data : List Nat) (k : Nat) : List Nat := (data.drop (512 * k)).take 512

/-- The header of the FIFO "p" (type flag 6). -/
def fifoHeader : List Nat := mkHeader [112] 54 0

/-- The archive that holds the FIFO "p" only. -/
def fifoArchive : List Nat := fifoHeader ++ List.replicate 1024 0

/-- The stream made of the header of "d/", the header of "d/f" and the five
content bytes "hello". -/
def helloStream : List Nat := dirHeader ++ (fileHeader ++ ([104, 101, 108, 108, 111] ++ []))

/-- The header of the empty regular file "e". -/
def emptyFileHeader : List Nat := mkHeader [101] REGTYPE 0

/-- The name "testdir/". -/
def testdirName : List Nat := [116, 101, 115, 116, 100, 105, 114, 47]

/-- The name "testdir/file.txt". -/
def testfileName : List Nat := testdirName ++ [102, 105, 108, 101, 46, 116, 120, 116]

/-- The header of the directory "testdir/". -/
def testdirHeader : List Nat := mkHeader testdirName DIRTYPE 0

/-- The header of the regular file "testdir/file.txt", of 5 bytes. -/
def testfileHeader : List Nat := mkHeader testfileName REGTYPE 5

/-- The archive of the scenario of the spec: the directory "testdir/", the
file "testdir/file.txt" holding "hello", and the terminator. -/
def testdirArchive : List Nat :=
  testdirHeader ++ (testfileHeader ++ (fileContent ++ List.replicate 1024 0))

/-- Output slots of 100 bytes each, holding the byte 255. -/
def slots (n : Nat) : List (List Nat) := List.replicate n (List.replicate 100 255)

/-- The name "dir/". -/
def dirName : List Nat := [100, 105, 114, 47]

/-- The archive of the doc comment of `list`: the directories "dir/",
"dir/c/", "dir/e/" and the empty files "dir/a", "dir/b", "dir/c/d". -/
def treeArchive : List Nat :=
  mkHeader dirName DIRTYPE 0 ++ (mkHeader (dirName ++ [97]) REGTYPE 0 ++
    (mkHeader (dirName ++ [98]) REGTYPE 0 ++ (mkHeader (dirName ++ [99, 47]) DIRTYPE 0 ++
      (mkHeader (dirName ++ [99, 47, 100]) REGTYPE 0 ++
        (mkHeader (dirName ++ [101, 47]) DIRTYPE 0 ++ List.replicate 1024 0)))))

/-- The archive that holds the file "a", whose single content byte is NUL,
then the file "b" holding "hello". -/
def nulFirstArchive : List Nat :=
  mkHeader [97] REGTYPE 1 ++ (List.replicate 512 0 ++
    (mkHeader [98] REGTYPE 5 ++ (fileContent ++ List.replicate 1024 0)))

/-- A header block with the given name, type flag, bytes of the size field
(12 bytes) and checksum field. -/
def rawHeaderWith (nm : List Nat) (flag : Nat) (sizeField : List Nat) (chk : List Nat) :
    List Nat :=
  pad 100 nm ++ [48, 48, 48, 48, 54, 52, 52, 0] ++ pad 8 [] ++ pad 8 [] ++
    pad 12 sizeField ++ (octalDigits 11 0 ++ [0]) ++ chk ++ [flag] ++
    List.replicate 100 0 ++ TMAGIC ++ [48, 48] ++ List.replicate 247 0

/-- A header block with the given bytes in its size field and its checksum
in its checksum field. -/
def mkHeaderWith (nm : List Nat) (flag : Nat) (sizeField : List Nat) : List Nat :=
  rawHeaderWith nm flag sizeField
    (octalDigits 6 (compute_checksum (rawHeaderWith nm flag sizeField (List.replicate 8 32)))
      ++ [0, 32])

/-- The header of the regular file "n" whose size field holds "-2001": the
decoded size is -1025. -/
def negSizeHeader : List Nat := mkHeaderWith [110] REGTYPE [45, 50, 48, 48, 49]

/-- A block that starts with the character x and holds NUL bytes after it. -/
def xBlock : List Nat := pad 512 [120]


/-- The header of the empty regular file "c" whose link name is "00" and
whose checksum field holds the eight digits "40000005": `strtol` reads on
through the type flag and the link name, eleven digits "40000005000", the
value 2^32 + 2560, where the checksum of the block is 2560. -/
def wideChksumHeader : List Nat :=
  pad 100 [99] ++ [48, 48, 48, 48, 54, 52, 52, 0] ++ pad 8 [] ++ pad 8 [] ++
    (octalDigits 11 0 ++ [0]) ++ (octalDigits 11 0 ++ [0]) ++
    [52, 48, 48, 48, 48, 48, 48, 53] ++ [REGTYPE] ++
    pad 100 [48, 48] ++ TMAGIC ++ [48, 48] ++ List.replicate 247 0
/-! ## Lemmas on the system calls and on `check_archive` -/

theorem read_block (fd : Fd) (buf blk rest : List Nat)
    (hd : fd.data.drop fd.pos = blk ++ rest) (hb : blk.length = 512)
    (hbuf : buf.length = 512) (he : fd.err fd.pos = false) :
    read fd buf 512 = (512, blk, { fd with pos := fd.pos + 512 }) := by
  have h1 : (blk ++ rest).take 512 = blk := by
    rw [← hb]; exact List.take_left' rfl
  have h2 : buf.drop 512 = [] := List.drop_eq_nil_of_le (by omega)
  simp [read, he, hd, overwrite, h1, hb, h2]

theorem read_next_header_block (fd : Fd) (buf blk rest : List Nat)
    (hd : fd.data.drop fd.pos = blk ++ rest) (hb : isHeaderBlock blk)
    (hbuf : buf.length = 512) (he : fd.err fd.pos = false) :
    read_next_header fd buf = (0, blk, { fd with pos := fd.pos + 512 }) := by
  obtain ⟨hl, hn⟩ := hb
  have hn2 : ¬ ((512 : Int) ≠ ((512 : Nat) : Int) ∨ (name blk).headD 0 = 0) := by
    simp only [name]; intro h; rcases h with h | h
    · exact h rfl
    · exact hn h
  rw [read_next_header]
  simp only [BLOCK_SIZE, read_block fd buf blk rest hd hl hbuf he]
  rw [if_neg (by decide), if_neg (by decide), if_neg hn2]

theorem strncmp_magic (a : List Nat) (hlen : 6 ≤ a.length) :
    strncmp_eq TMAGLEN a TMAGIC = true ↔ a.take 6 = [117, 115, 116, 97, 114, 0] := by
  match a, hlen with
  | a0 :: a1 :: a2 :: a3 :: a4 :: a5 :: t, _ =>
    simp [strncmp_eq, TMAGLEN, TMAGIC]; omega

theorem strncmp_version (a : List Nat) (hlen : 2 ≤ a.length) :
    strncmp_eq TVERSLEN a TVERSION = true ↔ a.take 2 = [48, 48] := by
  match a, hlen with
  | a0 :: a1 :: t, _ =>
    simp [strncmp_eq, TVERSLEN, TVERSION]; intro _; omega

theorem fd_pos_eta (fd : Fd) : ({ fd with pos := fd.pos } : Fd) = fd := by
  cases fd; rfl

theorem toSigned64_small (n : Nat) (h : n < 9223372036854775808) :
    toSigned64 (n : Int) = (n : Int) := by
  unfold toSigned64
  split_ifs <;> omega

theorem lseek_cur_small (fd : Fd) (n : Nat) (h : fd.pos + n < 9223372036854775808) :
    lseek_cur fd n = { fd with pos := fd.pos + n } := by
  unfold lseek_cur
  rw [toSigned64_small n (by omega)]
  have h1 : (0 : Int) ≤ (fd.pos : Int) + (n : Int) ∧
      (fd.pos : Int) + (n : Int) < 9223372036854775808 := by omega
  have h2 : ((fd.pos : Int) + (n : Int)).toNat = fd.pos + n := by omega
  simp only [h1, h2]
  simp

theorem skip_data_wf (fd : Fd) (h : List Nat)
    (hb : fd.pos + contentLength h < 9223372036854775808) :
    skip_data fd h = { fd with pos := fd.pos + contentLength h } := by
  unfold skip_data contentLength at *
  simp only [REGTYPE, AREGTYPE, BLOCK_SIZE]
  by_cases hr : typeflag h = 48 ∨ typeflag h = 0
  · simp only [hr, if_true] at hb ⊢
    change fd.pos + 512 * ((declaredSize h + 511) / 512) < _ at hb
    change lseek_cur fd ((((declaredSize h + 512 - 1) % 18446744073709551616) / 512 * 512)
      % 18446744073709551616) = _
    have e1 : (((declaredSize h + 512 - 1) % 18446744073709551616) / 512 * 512)
      % 18446744073709551616 = 512 * ((declaredSize h + 511) / 512) := by omega
    rw [e1]
    exact lseek_cur_small fd _ hb
  · simp only [hr, if_false]
    simp [fd_pos_eta]

theorem check_archive_loop_header (fuel : Nat) (fd : Fd) (header h rest : List Nat)
    (count : Int) (hd : fd.data.drop fd.pos = h ++ rest) (hb : isHeaderBlock h)
    (he : fd.err fd.pos = false) (hbuf : header.length = 512) :
    check_archive_loop (fuel + 1) fd header count =
      if ¬ magicOk h then some (-1, { fd with pos := fd.pos + 512 })
      else if ¬ versionOk h then some (-2, { fd with pos := fd.pos + 512 })
      else if declaredChecksum h ≠ compute_checksum h then
        some (-3, { fd with pos := fd.pos + 512 })
      else if 2147483647 ≤ count then none
      else check_archive_loop fuel (skip_data { fd with pos := fd.pos + 512 } h) h
        (count + 1) := by
  have hm : (strncmp_eq TMAGLEN (magic h) TMAGIC = false) ↔ ¬ magicOk h := by
    have := strncmp_magic (magic h) (by simp [magic, hb.1])
    change _ ↔ ¬ ((magic h).take 6 = [117, 115, 116, 97, 114, 0])
    rw [← this]; simp
  have hv : (strncmp_eq TVERSLEN (version h) TVERSION = false) ↔ ¬ versionOk h := by
    have := strncmp_version (version h) (by simp [version, hb.1])
    change _ ↔ ¬ ((version h).take 2 = [48, 48])
    rw [← this]; simp
  rw [check_archive_loop]
  simp only [read_next_header_block fd header h rest hd hb hbuf he]
  have z1 : ¬ ((0 : Int) = -1) := by decide
  have z2 : ¬ ((0 : Int) = -2) := by decide
  simp only [z1, z2, if_false, hm, hv, declaredChecksum]

theorem check_archive_loop_end (fuel : Nat) (fd : Fd) (header rest : List Nat)
    (count : Int) (hd : fd.data.drop fd.pos = List.replicate 512 0 ++ rest)
    (he : fd.err fd.pos = false) (hbuf : header.length = 512) :
    check_archive_loop (fuel + 1) fd header count =
      some (count, { fd with pos := fd.pos + 512 }) := by
  have hr := read_block fd header (List.replicate 512 0) rest hd
    (List.length_replicate _ _) hbuf he
  have hz : (name (List.replicate 512 0)).headD 0 = 0 := by
    show (List.replicate (511 + 1) 0).headD 0 = 0
    rw [List.replicate_succ]; rfl
  rw [check_archive_loop]
  simp only [read_next_header, BLOCK_SIZE, hr]
  have z1 : ¬ ((512 : Int) = 0) := by decide
  have z2 : ¬ ((512 : Int) < 0) := by decide
  simp only [z1, z2, if_false, hz, or_true, if_true]

theorem entriesBytes_cons_length (e : Entry) (es : List Entry) :
    (entriesBytes (e :: es)).length =
      e.hdr.length + e.content.length + (entriesBytes es).length := by
  simp [entriesBytes]; omega

theorem check_archive_loop_entries (es : List Entry) :
    ∀ (fuel : Nat) (fd : Fd) (header rest : List Nat) (count : Int),
      (∀ e ∈ es, WellFormedEntry e) →
      fd.data.drop fd.pos = entriesBytes es ++ rest →
      (∀ p, fd.err p = false) →
      header.length = 512 →
      fd.pos + (entriesBytes es).length < 9223372036854775808 →
      count + (es.length : Int) ≤ 2147483647 →
      ∃ header', header'.length = 512 ∧
        check_archive_loop (fuel + es.length) fd header count =
          check_archive_loop fuel { fd with pos := fd.pos + (entriesBytes es).length }
            header' (count + (es.length : Int)) := by
  induction es with
  | nil =>
    intro fuel fd header rest count _ _ _ hbuf _ _
    exact ⟨header, hbuf, by simp [entriesBytes, fd_pos_eta]⟩
  | cons e es ih =>
    intro fuel fd header rest count hwf hd he hbuf hpos hcount
    obtain ⟨⟨hblk, hmag, hver, hchk⟩, hcont⟩ := hwf e (List.mem_cons_self _ _)
    have hlen := entriesBytes_cons_length e es
    rw [hblk.1] at hlen
    have hd1 : fd.data.drop fd.pos = e.hdr ++ (e.content ++ entriesBytes es ++ rest) := by
      rw [hd]; simp [entriesBytes]
    have hstep := check_archive_loop_header (fuel + es.length) fd header e.hdr
      (e.content ++ entriesBytes es ++ rest) count hd1 hblk (he _) hbuf
    have hc1 : ¬ (2147483647 ≤ count) := by
      simp only [List.length_cons] at hcount; push_cast at hcount; omega
    rw [if_neg (by simpa using hmag), if_neg (by simpa using hver),
      if_neg (by simpa using hchk), if_neg hc1] at hstep
    have hskip := skip_data_wf { fd with pos := fd.pos + 512 } e.hdr
      (by simp only; rw [← hcont]; omega)
    rw [hskip] at hstep
    simp only at hstep
    have hd2 : ({ fd with pos := fd.pos + 512 + contentLength e.hdr } : Fd).data.drop
        ({ fd with pos := fd.pos + 512 + contentLength e.hdr } : Fd).pos =
        entriesBytes es ++ rest := by
      simp only
      rw [← hcont]
      have : fd.pos + 512 + e.content.length = fd.pos + (e.hdr ++ e.content).length := by
        simp [hblk.1]; omega
      rw [this, ← List.drop_drop, hd1]
      rw [← List.append_assoc, ← List.append_assoc, List.append_assoc _ _ rest]
      exact List.drop_left _ _
    obtain ⟨header', hl', hih⟩ := ih fuel { fd with pos := fd.pos + 512 + contentLength e.hdr }
      e.hdr rest (count + 1) (fun x hx => hwf x (List.mem_cons_of_mem _ hx)) hd2 he hblk.1
      (by simp only; rw [← hcont]; omega)
      (by simp only [List.length_cons] at hcount; push_cast at hcount; omega)
    refine ⟨header', hl', ?_⟩
    show check_archive_loop (fuel + es.length + 1) fd header count = _
    rw [hstep, hih]
    simp only [List.length_cons]
    rw [hlen, ← hcont]
    push_cast
    have e1 : fd.pos + 512 + e.content.length + (entriesBytes es).length =
        fd.pos + (512 + e.content.length + (entriesBytes es).length) := by omega
    have e2 : count + 1 + (es.length : Int) = count + ((es.length : Int) + 1) := by omega
    rw [e1, e2]
/-! ## Changing one byte of a header -/

theorem checksum_loop_set (l : List Nat) :
    ∀ (i k s b : Nat), 148 ≤ k + i → k + i < 156 →
      checksum_loop (l.set i b) k s = checksum_loop l k s := by
  induction l with
  | nil => intro i k s b _ _; rfl
  | cons x xs ih =>
    intro i k s b h1 h2
    cases i with
    | zero =>
      have hk : 148 ≤ k ∧ k < 156 := by omega
      simp only [List.set_cons_zero, checksum_loop, hk, and_self, if_true]
    | succ j =>
      simp only [List.set_cons_succ, checksum_loop]
      exact ih j (k + 1) _ b (by omega) (by omega)

theorem compute_checksum_set (h : List Nat) (i b : Nat) (h1 : 148 ≤ i) (h2 : i < 156) :
    compute_checksum (h.set i b) = compute_checksum h := by
  unfold compute_checksum
  rw [List.set_take]
  exact checksum_loop_set _ i 0 0 b (by omega) (by omega)

theorem headD_set_succ (h : List Nat) (i b : Nat) (hi : 0 < i) :
    (h.set i b).headD 0 = h.headD 0 := by
  cases h with
  | nil => rfl
  | cons x xs =>
    cases i with
    | zero => omega
    | succ j => rfl

theorem isHeaderBlock_set (h : List Nat) (i b : Nat) (hi : 0 < i) (hh : isHeaderBlock h) :
    isHeaderBlock (h.set i b) := by
  refine ⟨by rw [List.length_set]; exact hh.1, ?_⟩
  rw [headD_set_succ h i b hi]; exact hh.2

theorem magicOk_set (h : List Nat) (i b : Nat) (hi : i < 257) :
    magicOk (h.set i b) ↔ magicOk h := by
  show (List.drop 257 (h.set i b)).take 6 = _ ↔ (List.drop 257 h).take 6 = _
  rw [List.drop_set_of_lt b h hi]

theorem versionOk_set (h : List Nat) (i b : Nat) (hi : i < 263) :
    versionOk (h.set i b) ↔ versionOk h := by
  show (List.drop 263 (h.set i b)).take 2 = _ ↔ (List.drop 263 h).take 2 = _
  rw [List.drop_set_of_lt b h hi]

/-! ## Lemmas on `exists` -/

theorem blockAt_length (data : List Nat) (j : Nat) (h : 512 * (j + 1) ≤ data.length) :
    (blockAt data j).length = 512 := by
  simp only [blockAt, List.length_take, List.length_drop]
  omega

theorem drop_eq_blockAt (data : List Nat) (j : Nat) :
    data.drop (512 * j) = blockAt data j ++ data.drop (512 * (j + 1)) := by
  have h := List.take_append_drop 512 (data.drop (512 * j))
  rw [List.drop_drop] at h
  exact h.symm

theorem read_blockAt (data : List Nat) (err : Nat → Bool) (buf : List Nat) (j : Nat)
    (h : 512 * (j + 1) ≤ data.length) (hbuf : buf.length = 512)
    (he : err (512 * j) = false) :
    read ⟨data, err, 512 * j⟩ buf 512 = (512, blockAt data j, ⟨data, err, 512 * (j + 1)⟩) :=
  read_block ⟨data, err, 512 * j⟩ buf (blockAt data j) (data.drop (512 * (j + 1)))
    (drop_eq_blockAt data j) (blockAt_length data j h) hbuf he

theorem memcmp_null_block (blk : List Nat) (h : blk.length = 512) :
    memcmp_eq blk null_block 512 = true ↔ blk = null_block := by
  have h1 : blk.take 512 = blk := List.take_of_length_le (by omega)
  have h2 : null_block.take 512 = null_block :=
    List.take_of_length_le (by simp only [null_block, List.length_replicate]; omega)
  simp only [memcmp_eq, h1, h2, beq_iff_eq]

theorem exists_loop_step (path data : List Nat) (err : Nat → Bool) (buf : List Nat)
    (fuel j c : Nat) (h : 512 * (j + 1) ≤ data.length) (hbuf : buf.length = 512)
    (he : err (512 * j) = false) (hc : c < 2) :
    exists_loop path (fuel + 1) ⟨data, err, 512 * j⟩ buf c =
      if blockAt data j = null_block then
        exists_loop path fuel ⟨data, err, 512 * (j + 1)⟩ (blockAt data j) (c + 1)
      else if strcmp_eq path (blockAt data j) = true then
        some (classify (typeflag (blockAt data j)), ⟨data, err, 512 * (j + 1)⟩)
      else exists_loop path fuel ⟨data, err, 512 * (j + 1)⟩ (blockAt data j) 0 := by
  rw [exists_loop]
  simp only [read_blockAt data err buf j h hbuf he, next_header, name]
  have z : ¬ ((512 : Int) = -1) := by decide
  have hc' : ¬ ¬ c < 2 := not_not.mpr hc
  simp only [z, hc', if_false, memcmp_null_block _ (blockAt_length data j h)]

theorem exists_loop_scan (path data : List Nat) (err : Nat → Bool) (k : Nat)
    (hk : 512 * (k + 1) ≤ data.length) (herr : ∀ p, err p = false)
    (hnz : blockAt data k ≠ null_block) (hm : strcmp_eq path (blockAt data k) = true)
    (hfirst : ∀ j, j < k → blockAt data j = null_block ∨
      strcmp_eq path (blockAt data j) = false)
    (hpair : ∀ j, j + 1 < k → ¬ (blockAt data j = null_block ∧
      blockAt data (j + 1) = null_block)) :
    ∀ (m j c : Nat) (buf : List Nat) (fuel : Nat), j + m = k →
      (c = 0 ∨ (c = 1 ∧ 0 < j ∧ blockAt data (j - 1) = null_block)) →
      buf.length = 512 →
      exists_loop path (fuel + m + 1) ⟨data, err, 512 * j⟩ buf c =
        some (classify (typeflag (blockAt data k)), ⟨data, err, 512 * (k + 1)⟩) := by
  intro m
  induction m with
  | zero =>
    intro j c buf fuel hj hc hbuf
    have hjk : j = k := by omega
    subst hjk
    rw [exists_loop_step path data err buf fuel j c hk hbuf (herr _) (by omega),
      if_neg hnz, if_pos hm]
  | succ m ih =>
    intro j c buf fuel hj hc hbuf
    have hjl : 512 * (j + 1) ≤ data.length := by omega
    have hstep := exists_loop_step path data err buf (fuel + m + 1) j c hjl hbuf (herr _)
      (by omega)
    have hfuel : fuel + (m + 1) + 1 = fuel + m + 1 + 1 := by omega
    rw [hfuel, hstep]
    by_cases hz : blockAt data j = null_block
    · rw [if_pos hz]
      have hc0 : c = 0 := by
        rcases hc with hc | ⟨_, hj0, hprev⟩
        · exact hc
        · exfalso
          apply hpair (j - 1) (by omega)
          refine ⟨hprev, ?_⟩
          have : j - 1 + 1 = j := by omega
          rw [this]; exact hz
      subst hc0
      exact ih (j + 1) 1 _ fuel (by omega) (Or.inr ⟨rfl, by omega, by simpa using hz⟩)
        (blockAt_length data j hjl)
    · rw [if_neg hz]
      have hs : ¬ (strcmp_eq path (blockAt data j) = true) := by
        rcases hfirst j (by omega) with h1 | h1
        · exact absurd h1 hz
        · rw [h1]; decide
      rw [if_neg hs]
      exact ih (j + 1) 0 _ fuel (by omega) (Or.inl rfl) (blockAt_length data j hjl)

theorem exists_loop_fd (path : List Nat) :
    ∀ (fuel : Nat) (fd : Fd) (buf : List Nat) (c : Nat) (v : Int) (fd' : Fd),
      exists_loop path fuel fd buf c = some (v, fd') →
      fd'.data = fd.data ∧ fd'.err = fd.err := by
  intro fuel
  induction fuel with
  | zero => intro fd buf c v fd' h; simp [exists_loop] at h
  | succ n ih =>
    intro fd buf c v fd' h
    rw [exists_loop] at h
    have hr : (read fd buf 512).2.2.data = fd.data ∧ (read fd buf 512).2.2.err = fd.err := by
      unfold read; split <;> simp
    split at h
    · simp only [Option.some.injEq, Prod.mk.injEq] at h
      rw [← h.2]; exact ⟨rfl, rfl⟩
    · dsimp only at h
      split at h
      · simp only [Option.some.injEq, Prod.mk.injEq] at h
        rw [← h.2]; exact hr
      · split at h
        · have := ih _ _ _ _ _ h
          rw [hr.1, hr.2] at this; exact this
        · split at h
          · simp only [Option.some.injEq, Prod.mk.injEq] at h
            rw [← h.2]; exact hr
          · have := ih _ _ _ _ _ h
            simp only [next_header] at this
            rw [hr.1, hr.2] at this; exact this

theorem exists_loop_first_read (path data : List Nat) (err : Nat → Bool) (fuel : Nat)
    (buf1 buf2 : List Nat) (hlen : 512 ≤ data.length) (h1 : buf1.length = 512)
    (h2 : buf2.length = 512) :
    exists_loop path fuel ⟨data, err, 0⟩ buf1 0 = exists_loop path fuel ⟨data, err, 0⟩ buf2 0 := by
  cases fuel with
  | zero => rfl
  | succ n =>
    rw [exists_loop, exists_loop]
    by_cases he : err 0 = true
    · simp [read, he]
    · have he' : err (512 * 0) = false := by simpa using he
      have r1 := read_blockAt data err buf1 0 (by omega) h1 he'
      have r2 := read_blockAt data err buf2 0 (by omega) h2 he'
      simp only [Nat.mul_zero] at r1 r2
      rw [r1, r2]

/-! ## Lemmas on `read_file` -/

theorem read_file_loop_skip (path : List Nat) (offset : Nat) (dest : List Nat) (len : Nat)
    (fuel : Nat) (fd : Fd) (header blk rest : List Nat)
    (hd : fd.data.drop fd.pos = blk ++ rest) (hs : skippable path blk)
    (he : fd.err fd.pos = false) (hbuf : header.length = 512) :
    read_file_loop path offset dest len (fuel + 1) fd header =
      read_file_loop path offset dest len fuel { fd with pos := fd.pos + 512 } blk := by
  rw [read_file_loop, read_next_header_block fd header blk rest hd hs.1 hbuf he]
  dsimp only
  have z1 : ¬ ((0 : Int) = -1) := by decide
  have z2 : ¬ ((0 : Int) = -2) := by decide
  have z3 : ¬ (strcmp_eq (name blk) path = true ∧
      (typeflag blk = REGTYPE ∨ typeflag blk = AREGTYPE)) := hs.2
  rw [if_neg z1, if_neg z2, if_neg z3]

theorem blocksBytes_length (bs : List (List Nat)) (h : ∀ b ∈ bs, b.length = 512) :
    (blocksBytes bs).length = 512 * bs.length := by
  induction bs with
  | nil => rfl
  | cons b bs ih =>
    simp only [blocksBytes, List.length_append, List.length_cons]
    rw [ih (fun x hx => h x (List.mem_cons_of_mem _ hx)), h b (List.mem_cons_self _ _)]
    omega

theorem read_file_loop_scan (path : List Nat) (offset : Nat) (dest : List Nat) (len : Nat)
    (bs : List (List Nat)) :
    ∀ (fuel : Nat) (fd : Fd) (header rest : List Nat),
      (∀ b ∈ bs, skippable path b) →
      fd.data.drop fd.pos = blocksBytes bs ++ rest →
      (∀ p, fd.err p = false) →
      header.length = 512 →
      ∃ header', header'.length = 512 ∧
        read_file_loop path offset dest len (fuel + bs.length) fd header =
          read_file_loop path offset dest len fuel
            { fd with pos := fd.pos + 512 * bs.length } header' := by
  induction bs with
  | nil =>
    intro fuel fd header rest _ _ _ hbuf
    exact ⟨header, hbuf, by simp [fd_pos_eta]⟩
  | cons b bs ih =>
    intro fuel fd header rest hs hd he hbuf
    have hb := hs b (List.mem_cons_self _ _)
    have hd1 : fd.data.drop fd.pos = b ++ (blocksBytes bs ++ rest) := by
      rw [hd]; simp [blocksBytes]
    have hstep := read_file_loop_skip path offset dest len (fuel + bs.length) fd header b
      (blocksBytes bs ++ rest) hd1 hb (he _) hbuf
    have hd2 : ({ fd with pos := fd.pos + 512 } : Fd).data.drop
        ({ fd with pos := fd.pos + 512 } : Fd).pos = blocksBytes bs ++ rest := by
      show fd.data.drop (fd.pos + 512) = _
      rw [← List.drop_drop, hd1, List.drop_left' hb.1.1]
    obtain ⟨header', hl, hih⟩ := ih fuel { fd with pos := fd.pos + 512 } b rest
      (fun x hx => hs x (List.mem_cons_of_mem _ hx)) hd2 he hb.1.1
    refine ⟨header', hl, ?_⟩
    show read_file_loop path offset dest len (fuel + bs.length + 1) fd header = _
    rw [hstep, hih]
    simp only [List.length_cons]
    have e1 : fd.pos + 512 + 512 * bs.length = fd.pos + 512 * (bs.length + 1) := by omega
    rw [e1]

theorem read_file_loop_found (path : List Nat) (offset : Nat) (dest : List Nat) (len : Nat)
    (fuel : Nat) (fd : Fd) (header hdr rest : List Nat)
    (hd : fd.data.drop fd.pos = hdr ++ rest) (hh : isHeaderBlock hdr)
    (hname : strcmp_eq (name hdr) path = true) (hreg : isRegular hdr)
    (he : fd.err fd.pos = false) (hbuf : header.length = 512) :
    read_file_loop path offset dest len (fuel + 1) fd header =
      if offset ≥ declaredSize hdr then
        some ⟨-2, dest, len, { fd with pos := fd.pos + 512 }⟩
      else
        some ⟨toSigned64 ((declaredSize hdr : Int) - (offset : Int) -
            (read (lseek_cur { fd with pos := fd.pos + 512 } offset) dest
              (if declaredSize hdr - offset > len then len else declaredSize hdr - offset)).1),
          (read (lseek_cur { fd with pos := fd.pos + 512 } offset) dest
              (if declaredSize hdr - offset > len then len else declaredSize hdr - offset)).2.1,
          toSizeT (read (lseek_cur { fd with pos := fd.pos + 512 } offset) dest
              (if declaredSize hdr - offset > len then len else declaredSize hdr - offset)).1,
          (read (lseek_cur { fd with pos := fd.pos + 512 } offset) dest
              (if declaredSize hdr - offset > len then len else declaredSize hdr - offset)).2.2⟩ := by
  unfold declaredSize
  rw [read_file_loop, read_next_header_block fd header hdr rest hd hh hbuf he]
  dsimp only
  have z1 : ¬ ((0 : Int) = -1) := by decide
  have z2 : ¬ ((0 : Int) = -2) := by decide
  have z3 : strcmp_eq (name hdr) path = true ∧
      (typeflag hdr = REGTYPE ∨ typeflag hdr = AREGTYPE) := ⟨hname, hreg⟩
  rw [if_neg z1, if_neg z2, if_pos z3]


theorem read_exact (fd : Fd) (buf a rest : List Nat) (n : Nat)
    (hd : fd.data.drop fd.pos = a ++ rest) (hn : n ≤ a.length)
    (he : fd.err fd.pos = false) :
    read fd buf n = ((n : Int), overwrite buf (a.take n), { fd with pos := fd.pos + n }) := by
  have h1 : (a ++ rest).take n = a.take n := List.take_append_of_le_length hn
  have h2 : (a.take n).length = n := by rw [List.length_take]; omega
  simp only [read, he, hd, h1, h2]
  simp

theorem toSizeT_small (n : Nat) (h : n < 18446744073709551616) : toSizeT (n : Int) = n := by
  unfold toSizeT
  omega

theorem read_file_at_entry (path : List Nat) (offset : Nat) (dest : List Nat) (len : Nat)
    (fuel : Nat) (fd : Fd) (header hdr content rest : List Nat)
    (hd : fd.data.drop fd.pos = hdr ++ (content ++ rest)) (hh : isHeaderBlock hdr)
    (hname : strcmp_eq (name hdr) path = true) (hreg : isRegular hdr)
    (hcont : content.length = declaredSize hdr)
    (herr : ∀ p, fd.err p = false) (hlen : fd.data.length < 9223372036854775808)
    (hoff : offset < declaredSize hdr) (hbuf : header.length = 512) :
    read_file_loop path offset dest len (fuel + 1) fd header =
      some ⟨(declaredSize hdr : Int) - (offset : Int) -
          ((min (declaredSize hdr - offset) len : Nat) : Int),
        overwrite dest ((content.drop offset).take (min (declaredSize hdr - offset) len)),
        min (declaredSize hdr - offset) len,
        ⟨fd.data, fd.err, fd.pos + 512 + offset + min (declaredSize hdr - offset) len⟩⟩ := by
  have hfound := read_file_loop_found path offset dest len fuel fd header hdr
    (content ++ rest) hd hh hname hreg (herr _) hbuf
  rw [if_neg (by omega)] at hfound
  have hdl : (fd.data.drop fd.pos).length = 512 + (declaredSize hdr + rest.length) := by
    rw [hd, List.length_append, List.length_append, hh.1, hcont]
  rw [List.length_drop] at hdl
  have hseek := lseek_cur_small { fd with pos := fd.pos + 512 } offset
    (by show fd.pos + 512 + offset < _; omega)
  have hmin : (if declaredSize hdr - offset > len then len else declaredSize hdr - offset) =
      min (declaredSize hdr - offset) len := by
    split_ifs <;> omega
  have hd3 : fd.data.drop (fd.pos + 512 + offset) = content.drop offset ++ rest := by
    rw [← List.drop_drop, ← List.drop_drop, hd, List.drop_left' hh.1]
    exact List.drop_append_of_le_length (by omega)
  have hread := read_exact ⟨fd.data, fd.err, fd.pos + 512 + offset⟩ dest (content.drop offset)
    rest (min (declaredSize hdr - offset) len) hd3
    (by rw [List.length_drop]; omega) (herr _)
  rw [hseek, hmin] at hfound
  have hfd : ({ ({ fd with pos := fd.pos + 512 } : Fd) with
      pos := ({ fd with pos := fd.pos + 512 } : Fd).pos + offset } : Fd) =
      ⟨fd.data, fd.err, fd.pos + 512 + offset⟩ := rfl
  rw [hfd, hread] at hfound
  rw [hfound]
  have hs : toSigned64 ((declaredSize hdr : Int) - (offset : Int) -
      ((min (declaredSize hdr - offset) len : Nat) : Int)) =
      (declaredSize hdr : Int) - (offset : Int) -
        ((min (declaredSize hdr - offset) len : Nat) : Int) := by
    have : (declaredSize hdr : Int) - (offset : Int) -
        ((min (declaredSize hdr - offset) len : Nat) : Int) =
        ((declaredSize hdr - offset - min (declaredSize hdr - offset) len : Nat) : Int) := by
      omega
    rw [this]
    exact toSigned64_small _ (by omega)
  have ht := toSizeT_small (min (declaredSize hdr - offset) len) (by omega)
  simp only [hs, ht]


theorem read_file_chunk (fd : Fd) (header path dest : List Nat) (offset len fuel : Nat)
    (bs : List (List Nat)) (hdr content rest : List Nat)
    (hscan : ∀ b ∈ bs, skippable path b)
    (hd : fd.data.drop fd.pos = blocksBytes bs ++ (hdr ++ (content ++ rest)))
    (hh : isHeaderBlock hdr) (hname : strcmp_eq (name hdr) path = true)
    (hreg : isRegular hdr) (hcont : content.length = declaredSize hdr)
    (herr : ∀ p, fd.err p = false) (hlen : fd.data.length < 9223372036854775808)
    (hoff : offset < declaredSize hdr) (hbuf : header.length = 512)
    (hfuel : bs.length < fuel) :
    read_file fuel fd header path offset dest len =
      some ⟨(declaredSize hdr : Int) - (offset : Int) -
          ((min (declaredSize hdr - offset) len : Nat) : Int),
        overwrite dest ((content.drop offset).take (min (declaredSize hdr - offset) len)),
        min (declaredSize hdr - offset) len,
        ⟨fd.data, fd.err,
          fd.pos + 512 * bs.length + 512 + offset + min (declaredSize hdr - offset) len⟩⟩ := by
  obtain ⟨header', hl, h⟩ := read_file_loop_scan path offset dest len bs
    (fuel - bs.length - 1 + 1) fd header (hdr ++ (content ++ rest)) hscan hd herr hbuf
  have hf : fuel - bs.length - 1 + 1 + bs.length = fuel := by omega
  rw [hf] at h
  have hd1 : ({ fd with pos := fd.pos + 512 * bs.length } : Fd).data.drop
      ({ fd with pos := fd.pos + 512 * bs.length } : Fd).pos = hdr ++ (content ++ rest) := by
    show fd.data.drop (fd.pos + 512 * bs.length) = _
    rw [← List.drop_drop, hd]
    exact List.drop_left' (blocksBytes_length bs (fun b hb => (hscan b hb).1.1))
  unfold read_file
  rw [h, read_file_at_entry path offset dest len (fuel - bs.length - 1)
    { fd with pos := fd.pos + 512 * bs.length } header' hdr content rest hd1 hh hname hreg
    hcont herr hlen hoff hl]

/-! ## Lemmas on `compute_checksum` -/

theorem checksum_loop_eq_plainSum (l : List Nat) :
    ∀ (i s : Nat), s < 4294967296 →
      checksum_loop l i s = (s + plainSum l i) % 4294967296 := by
  induction l with
  | nil => intro i s hs; simp only [checksum_loop, plainSum]; omega
  | cons b bs ih =>
    intro i s hs
    simp only [checksum_loop, plainSum]
    by_cases h : 148 ≤ i ∧ i < 156
    · simp only [h, and_self, if_true]
      rw [ih (i + 1) _ (Nat.mod_lt _ (by decide))]
      omega
    · simp only [h, if_false]
      rw [ih (i + 1) _ (Nat.mod_lt _ (by decide))]
      omega

theorem plainSum_append (a b : List Nat) :
    ∀ i, plainSum (a ++ b) i = plainSum a i + plainSum b (i + a.length) := by
  induction a with
  | nil => intro i; simp [plainSum]
  | cons x xs ih =>
    intro i
    rw [List.cons_append, plainSum, plainSum, ih (i + 1), List.length_cons]
    have : i + 1 + xs.length = i + (xs.length + 1) := by omega
    rw [this]; omega

theorem plainSum_before (l : List Nat) :
    ∀ i, i + l.length ≤ 148 → plainSum l i = l.sum := by
  induction l with
  | nil => intro i _; rfl
  | cons x xs ih =>
    intro i h
    simp only [List.length_cons] at h
    have hi : ¬ (148 ≤ i ∧ i < 156) := by omega
    simp only [plainSum, hi, if_false, List.sum_cons]
    rw [ih (i + 1) (by omega)]

theorem plainSum_field (l : List Nat) :
    ∀ i, 148 ≤ i → i + l.length ≤ 156 → plainSum l i = 32 * l.length := by
  induction l with
  | nil => intro i _ _; rfl
  | cons x xs ih =>
    intro i h1 h2
    simp only [List.length_cons] at h2
    have hi : 148 ≤ i ∧ i < 156 := by omega
    simp only [plainSum, hi, and_self, if_true, List.length_cons]
    rw [ih (i + 1) (by omega) (by omega)]
    omega

theorem plainSum_after (l : List Nat) :
    ∀ i, 156 ≤ i → plainSum l i = l.sum := by
  induction l with
  | nil => intro i _; rfl
  | cons x xs ih =>
    intro i h
    have hi : ¬ (148 ≤ i ∧ i < 156) := by omega
    simp only [plainSum, hi, if_false, List.sum_cons]
    rw [ih (i + 1) (by omega)]

theorem plainSum_block (b : List Nat) (hlen : b.length = 512) :
    plainSum b 0 = 256 + ((b.take 148).sum + (b.drop 156).sum) := by
  have h1 : b = b.take 148 ++ ((b.drop 148).take 8 ++ b.drop 156) := by
    have e1 := List.take_append_drop 148 b
    have e2 := List.take_append_drop 8 (b.drop 148)
    rw [List.drop_drop] at e2
    rw [e2, e1]
  have l1 : (b.take 148).length = 148 := by rw [List.length_take]; omega
  have l2 : ((b.drop 148).take 8).length = 8 := by
    rw [List.length_take, List.length_drop]; omega
  conv_lhs => rw [h1]
  rw [plainSum_append, plainSum_append, plainSum_before _ 0 (by omega),
    plainSum_field _ _ (by omega) (by omega), plainSum_after _ _ (by omega), l2]
  omega

theorem sum_le_of_bytes (l : List Nat) (h : ∀ x ∈ l, x < 256) : l.sum ≤ 255 * l.length := by
  induction l with
  | nil => simp
  | cons x xs ih =>
    have hx := h x (List.mem_cons_self _ _)
    have := ih (fun y hy => h y (List.mem_cons_of_mem _ hy))
    simp only [List.sum_cons, List.length_cons]
    omega

theorem compute_checksum_block (b : List Nat) (hlen : b.length = 512)
    (hbytes : ∀ x ∈ b, x < 256) :
    compute_checksum b = 256 + ((b.take 148).sum + (b.drop 156).sum) ∧
      256 + ((b.take 148).sum + (b.drop 156).sum) ≤ 128776 := by
  have h1 := sum_le_of_bytes (b.take 148) (fun x hx => hbytes x (List.mem_of_mem_take hx))
  have h2 := sum_le_of_bytes (b.drop 156) (fun x hx => hbytes x (List.mem_of_mem_drop hx))
  rw [List.length_take] at h1
  rw [List.length_drop] at h2
  have hb : 256 + ((b.take 148).sum + (b.drop 156).sum) ≤ 128776 := by omega
  refine ⟨?_, hb⟩
  unfold compute_checksum
  have ht : b.take BLOCK_SIZE = b := List.take_of_length_le (by simp [BLOCK_SIZE, hlen])
  rw [ht, checksum_loop_eq_plainSum b 0 0 (by decide), plainSum_block b hlen]
  omega

/-! ## Lemmas on the corruption of one byte -/

theorem getD_set_self (l : List Nat) (i b : Nat) (h : i < l.length) :
    (l.set i b).getD i 0 = b := by
  simp [List.getElem?_set, h]

theorem getD_set_ne (l : List Nat) (i j b : Nat) (h : i ≠ j) :
    (l.set i b).getD j 0 = l.getD j 0 := by
  simp [List.getElem?_set, h]

theorem getD_take_drop (l : List Nat) (m n k : Nat) (h : k < n) :
    ((l.drop m).take n).getD k 0 = l.getD (m + k) 0 := by
  simp [List.getElem?_take_of_lt h, List.getElem?_drop]

theorem take_set_of_le (l : List Nat) (n m b : Nat) (h : n ≤ m) :
    (l.set m b).take n = l.take n := by
  rw [List.set_take]
  exact List.set_eq_of_length_le (by rw [List.length_take]; omega)

theorem field_set_outside (l : List Nat) (m n i b : Nat) (h : i < m ∨ m + n ≤ i) :
    ((l.set i b).drop m).take n = (l.drop m).take n := by
  rcases h with h | h
  · rw [List.drop_set_of_lt b l h]
  · rw [List.drop_set, if_neg (by omega)]
    exact take_set_of_le _ n (i - m) b (by omega)

theorem field_set_inside (l : List Nat) (m n i b : Nat) (h1 : m ≤ i) (h2 : i < m + n)
    (hl : i < l.length) (hb : b ≠ l.getD i 0) :
    ((l.set i b).drop m).take n ≠ (l.drop m).take n := by
  intro heq
  have e1 := getD_take_drop (l.set i b) m n (i - m) (by omega)
  have e2 := getD_take_drop l m n (i - m) (by omega)
  have hi : m + (i - m) = i := by omega
  rw [heq, e2, hi, getD_set_self l i b hl] at e1
  exact hb e1.symm

theorem sum_set (l : List Nat) :
    ∀ (i b : Nat), i < l.length → (l.set i b).sum + l.getD i 0 = l.sum + b := by
  induction l with
  | nil => intro i b h; simp at h
  | cons x xs ih =>
    intro i b h
    cases i with
    | zero => simp [List.sum_cons]; omega
    | succ j =>
      have := ih j b (by simpa using h)
      simp only [List.set_cons_succ, List.sum_cons, List.getD_cons_succ]
      omega

theorem takeWhile_append_stop (p : Nat → Bool) (ds : List Nat) (x : Nat) (r : List Nat)
    (hd : ∀ d ∈ ds, p d = true) (hx : p x = false) :
    (ds ++ x :: r).takeWhile p = ds := by
  induction ds with
  | nil => simp [List.takeWhile_cons, hx]
  | cons d ds ih =>
    have h1 := hd d (List.mem_cons_self _ _)
    rw [List.cons_append, List.takeWhile_cons, h1]
    simp only [if_true]
    rw [ih (fun y hy => hd y (List.mem_cons_of_mem _ hy))]

theorem strtol8_digits_then_nul (d : Nat) (ds r1 r2 : List Nat)
    (hd : ∀ c ∈ d :: ds, isodigit c = true) :
    strtol8 ((d :: ds) ++ 0 :: r1) = strtol8 ((d :: ds) ++ 0 :: r2) := by
  have h0 := hd d (List.mem_cons_self _ _)
  have hdig : 48 ≤ d ∧ d ≤ 55 := by simpa [isodigit] using h0
  have hsp : isspace d = false := by
    simp only [isspace, Bool.or_eq_false_iff, beq_eq_false_iff_ne, Bool.and_eq_false_iff,
      decide_eq_false_iff_not]
    omega
  have h45 : (d == 45) = false := by simp; omega
  have h43 : (d == 43) = false := by simp; omega
  have hz : isodigit 0 = false := by decide
  have t1 := takeWhile_append_stop isodigit (d :: ds) 0 r1 hd hz
  have t2 := takeWhile_append_stop isodigit (d :: ds) 0 r2 hd hz
  unfold strtol8
  simp only [List.cons_append, List.dropWhile_cons, hsp, List.headD_cons, h45, h43,
    Bool.or_self, Bool.false_eq_true, if_false]
  rw [List.cons_append] at t1 t2
  rw [t1, t2]

theorem declaredChecksum_set_outside (h : List Nat) (i b : Nat) (hc : canonicalChksum h)
    (hi : i < 148 ∨ 156 ≤ i) : declaredChecksum (h.set i b) = declaredChecksum h := by
  obtain ⟨h6, hdig, h2⟩ := hc
  unfold chksum at h6 hdig h2
  unfold declaredChecksum TAR_INT chksum
  rcases hi with hi | hi
  · rw [List.drop_set_of_lt b h hi]
  · rw [List.drop_set, if_neg (by omega)]
    have e1 := List.take_append_drop 6 (h.drop 148)
    have e2 := List.take_append_drop 2 ((h.drop 148).drop 6)
    rw [h2] at e2
    rw [← e2] at e1
    match hds : (h.drop 148).take 6, h6 with
    | d :: ds, hlen =>
      rw [hds] at e1 hdig
      have hl : (d :: ds).length = 6 := hlen
      rw [← e1, List.set_append_right _ _ (by rw [hl]; omega), hl]
      have hk : i - 148 - 6 = (i - 156) + 1 + 1 := by omega
      rw [hk]
      exact congrArg toUInt (strtol8_digits_then_nul d ds _ _ hdig)

theorem compute_checksum_set_outside (h : List Nat) (i b : Nat) (hlen : h.length = 512)
    (hbytes : ∀ x ∈ h, x < 256) (hi : i < 512) (hout : i < 148 ∨ 156 ≤ i) (hb : b < 256)
    (hne : b ≠ h.getD i 0) : compute_checksum (h.set i b) ≠ compute_checksum h := by
  have hbytes' : ∀ x ∈ h.set i b, x < 256 := by
    intro x hx
    rcases List.mem_or_eq_of_mem_set hx with hx | hx
    · exact hbytes x hx
    · rw [hx]; exact hb
  obtain ⟨c1, _⟩ := compute_checksum_block h hlen hbytes
  obtain ⟨c2, _⟩ := compute_checksum_block (h.set i b) (by rw [List.length_set]; exact hlen)
    hbytes'
  rw [c1, c2]
  rcases hout with hi1 | hi1
  · rw [List.drop_set_of_lt b h (by omega : i < 156), List.set_take]
    have hs := sum_set (h.take 148) i b (by rw [List.length_take]; omega)
    have hg : (h.take 148).getD i 0 = h.getD i 0 := by
      have := getD_take_drop h 0 148 i hi1
      simpa using this
    rw [hg] at hs
    omega
  · rw [take_set_of_le h 148 i b (by omega), List.drop_set, if_neg (by omega)]
    have hs := sum_set (h.drop 156) (i - 156) b (by rw [List.length_drop]; omega)
    have hg : (h.drop 156).getD (i - 156) 0 = h.getD i 0 := by
      have hk : 156 + (i - 156) = i := by omega
      simp [List.getElem?_drop, hk]
    rw [hg] at hs
    omega

/-! ## Lemmas on the end of the scan of `exists` -/

theorem read_at_end (data : List Nat) (err : Nat → Bool) (buf : List Nat) (n : Nat)
    (he : err data.length = false) :
    read ⟨data, err, data.length⟩ buf n = (0, buf, ⟨data, err, data.length⟩) := by
  have h1 : data.drop data.length = [] := List.drop_eq_nil_of_le (Nat.le_refl _)
  simp [read, he, h1, overwrite]

theorem memcmp_null_self : memcmp_eq null_block null_block 512 = true := by
  simp [memcmp_eq]

theorem exists_loop_at_end (path data : List Nat) (err : Nat → Bool) (c f : Nat)
    (he : err data.length = false) (hc : 1 ≤ c) :
    exists_loop path (f + 2) ⟨data, err, data.length⟩ null_block c =
      some (0, ⟨data, err, data.length⟩) := by
  by_cases h2 : c < 2
  · rw [exists_loop, if_neg (not_not.mpr h2)]
    simp only [read_at_end data err null_block 512 he]
    have z : ¬ ((0 : Int) = -1) := by decide
    rw [if_neg z, if_pos memcmp_null_self, exists_loop, if_pos (by omega)]
  · rw [exists_loop, if_pos h2]

theorem exists_loop_terminates (path data : List Nat) (err : Nat → Bool) (n : Nat)
    (hlen : data.length = 512 * n) (hn : 0 < n)
    (hlast : blockAt data (n - 1) = null_block) (herr : ∀ p, err p = false) :
    ∀ (m j c : Nat) (buf : List Nat) (fuel : Nat), j + m + 1 = n → buf.length = 512 →
      m + 3 ≤ fuel → ∃ r, exists_loop path fuel ⟨data, err, 512 * j⟩ buf c = some r := by
  intro m
  induction m with
  | zero =>
    intro j c buf fuel hj hbuf hfuel
    obtain ⟨f, hf⟩ : ∃ f, fuel = f + 2 + 1 := ⟨fuel - 3, by omega⟩
    by_cases hc : c < 2
    · have hjl : 512 * (j + 1) ≤ data.length := by rw [hlen]; apply Nat.mul_le_mul_left; omega
      have hjn : j = n - 1 := by omega
      rw [hf, exists_loop_step path data err buf (f + 2) j c hjl hbuf (herr _) hc,
        if_pos (by rw [hjn]; exact hlast)]
      have hz : blockAt data j = null_block := by rw [hjn]; exact hlast
      have hpos : 512 * (j + 1) = data.length := by omega
      rw [hz, hpos]
      exact ⟨_, exists_loop_at_end path data err (c + 1) f (herr _) (by omega)⟩
    · rw [hf, exists_loop, if_pos hc]
      exact ⟨_, rfl⟩
  | succ m ih =>
    intro j c buf fuel hj hbuf hfuel
    obtain ⟨f, hf⟩ : ∃ f, fuel = f + 1 := ⟨fuel - 1, by omega⟩
    by_cases hc : c < 2
    · have hjl : 512 * (j + 1) ≤ data.length := by rw [hlen]; apply Nat.mul_le_mul_left; omega
      rw [hf, exists_loop_step path data err buf f j c hjl hbuf (herr _) hc]
      have hbl := blockAt_length data j hjl
      by_cases hz : blockAt data j = null_block
      · rw [if_pos hz]
        exact ih (j + 1) (c + 1) _ f (by omega) hbl (by omega)
      · rw [if_neg hz]
        by_cases hs : strcmp_eq path (blockAt data j) = true
        · rw [if_pos hs]
          exact ⟨_, rfl⟩
        · rw [if_neg hs]
          exact ih (j + 1) 0 _ f (by omega) hbl (by omega)
    · rw [hf, exists_loop, if_pos hc]
      exact ⟨_, rfl⟩

/-! ## Lemmas on `list` -/

theorem strlen_eq_cstr_length (p : List Nat) : strlen p = (cstr p).length := by
  induction p with
  | nil => rfl
  | cons c p ih =>
    by_cases hc : c = 0
    · simp [strlen, cstr, hc]
    · have : (c != 0) = true := by simpa using hc
      simp only [strlen, hc, if_false, cstr, List.takeWhile_cons, this, if_true,
        List.length_cons]
      rw [ih]; rfl

theorem strncmp_path (path : List Nat) :
    ∀ nm : List Nat, strncmp_eq (strlen path) nm path = true ↔
      nm.take (cstr path).length = cstr path := by
  induction path with
  | nil => intro nm; simp [strlen, cstr, strncmp_eq]
  | cons c p ih =>
    intro nm
    by_cases hc : c = 0
    · simp [strlen, cstr, strncmp_eq, hc]
    · have hc' : (c != 0) = true := by simpa using hc
      have hcs : cstr (c :: p) = c :: cstr p := by
        simp only [cstr, List.takeWhile_cons, hc', if_true]
      rw [hcs]
      simp only [strlen, hc, if_false, List.length_cons]
      cases nm with
      | nil =>
        simp only [strncmp_eq, List.headD_nil, List.headD_cons, List.take_nil]
        have : (0 : Nat) ≠ c := fun h => hc h.symm
        simp [this]
      | cons x t =>
        simp only [strncmp_eq, List.headD_cons, List.tail_cons, List.take_succ_cons,
          List.cons.injEq]
        by_cases hx : x = c
        · subst hx
          simp only [ne_eq, not_true_eq_false, if_false, hc, true_and]
          exact ih t
        · simp [hx]

theorem matching_eq_filter (path : List Nat) (bs : List (List Nat)) :
    matching path bs = bs.filter (matchesPath path) := by
  unfold matching
  apply List.filter_congr
  intro b _
  have := strncmp_path path (name b)
  show decide (startsWithPath path b) = strncmp_eq (strlen path) (name b) path
  by_cases h : strncmp_eq (strlen path) (name b) path = true
  · rw [h]; exact decide_eq_true (this.1 h)
  · have h' : strncmp_eq (strlen path) (name b) path = false := by
      cases hx : strncmp_eq (strlen path) (name b) path
      · rfl
      · exact absurd hx h
    rw [h']
    exact decide_eq_false (fun hs => h (this.2 hs))

theorem strncpy_bytes_length (n : Nat) : ∀ s : List Nat, (strncpy_bytes n s).length = n := by
  induction n with
  | zero => intro s; rfl
  | succ n ih =>
    intro s
    unfold strncpy_bytes
    split
    · exact List.length_replicate _ _
    · rw [List.length_cons, ih]

theorem cstr_cons_zero (r : List Nat) : cstr (0 :: r) = [] := by
  simp [cstr]

theorem cstr_cons_ne (x : Nat) (r : List Nat) (hx : x ≠ 0) : cstr (x :: r) = x :: cstr r := by
  have : (x != 0) = true := by simpa using hx
  simp only [cstr, List.takeWhile_cons, this, if_true]

theorem cstr_strncpy_set (n : Nat) :
    ∀ (s rest : List Nat), cstr ((strncpy_bytes (n + 1) s).set n 0 ++ rest) = (cstr s).take n := by
  induction n with
  | zero =>
    intro s rest
    have h1 : (strncpy_bytes 1 s).set 0 0 = [0] := by
      unfold strncpy_bytes
      split <;> rfl
    rw [h1, List.take_zero]
    exact cstr_cons_zero _
  | succ n ih =>
    intro s rest
    by_cases h0 : s.headD 0 = 0
    · have h1 : strncpy_bytes (n + 1 + 1) s = 0 :: List.replicate (n + 1) 0 := by
        rw [strncpy_bytes, if_pos h0, List.replicate_succ]
      have h2 : cstr s = [] := by
        cases s with
        | nil => rfl
        | cons x t =>
          have hx : x = 0 := h0
          rw [hx]; exact cstr_cons_zero _
      rw [h1, List.set_cons_succ, List.cons_append, cstr_cons_zero, h2, List.take_nil]
    · cases s with
      | nil => exact absurd rfl h0
      | cons x t =>
        have hx : x ≠ 0 := h0
        have h1 : strncpy_bytes (n + 1 + 1) (x :: t) = x :: strncpy_bytes (n + 1) t := by
          rw [strncpy_bytes, if_neg h0]; rfl
        rw [h1, List.set_cons_succ, List.cons_append, cstr_cons_ne x _ hx, ih t rest,
          cstr_cons_ne x _ hx, List.take_succ_cons]

theorem cstr_store_name (slot nm : List Nat) :
    cstr (store_name slot nm) = (cstr nm).take 99 := by
  unfold store_name overwrite
  rw [strncpy_bytes_length, List.set_append_left _ _ (by rw [strncpy_bytes_length]; omega)]
  exact cstr_strncpy_set 99 nm _

theorem read_next_header_end (fd : Fd) (header tail : List Nat)
    (hd : fd.data.drop fd.pos = tail) (ht : endOfArchive tail)
    (he : fd.err fd.pos = false) :
    (read_next_header fd header).1 = -1 := by
  unfold read_next_header
  have hr : read fd header BLOCK_SIZE =
      (((tail.take 512).length : Int), overwrite header (tail.take 512),
        { fd with pos := fd.pos + (tail.take 512).length }) := by
    simp [read, he, hd, BLOCK_SIZE]
  rw [hr]
  dsimp only
  by_cases h0 : ((tail.take 512).length : Int) = 0
  · rw [if_pos h0]
  · rw [if_neg h0, if_neg (by omega)]
    by_cases h5 : ((tail.take 512).length : Int) ≠ (BLOCK_SIZE : Int)
    · rw [if_pos (Or.inl h5)]
    · have hl : (tail.take 512).length = 512 := by
        simp only [BLOCK_SIZE, ne_eq, not_not] at h5
        exact_mod_cast h5
      have hz : tail.headD 0 = 0 := by
        rcases ht with ht | ht
        · rw [List.length_take] at hl; omega
        · exact ht
      have hn : (name (overwrite header (tail.take 512))).headD 0 = 0 := by
        cases tail with
        | nil => simp at hl
        | cons x t =>
          have hx : x = 0 := hz
          simp [name, overwrite, hx]
      rw [if_pos (Or.inr hn)]

theorem list_loop_end (path : List Nat) (c fuel : Nat) (fd : Fd) (header tail : List Nat)
    (entries : List (List Nat)) (count : Nat)
    (hd : fd.data.drop fd.pos = tail) (ht : endOfArchive tail)
    (he : fd.err fd.pos = false) :
    list_loop path c (fuel + 1) fd header entries count =
      some ⟨if count > 0 then 1 else 0, entries, count, (read_next_header fd header).2.2⟩ := by
  rw [list_loop]
  simp only [read_next_header_end fd header tail hd ht he, if_true]

theorem list_loop_header (path : List Nat) (c fuel : Nat) (fd : Fd)
    (header b rest : List Nat) (entries : List (List Nat)) (count : Nat)
    (hd : fd.data.drop fd.pos = b ++ rest) (hb : isHeaderBlock b)
    (he : fd.err fd.pos = false) (hbuf : header.length = 512) :
    list_loop path c (fuel + 1) fd header entries count =
      list_loop path c fuel { fd with pos := fd.pos + 512 } b
        (fillSlots path c [b] entries count).1 (fillSlots path c [b] entries count).2 := by
  rw [list_loop, read_next_header_block fd header b rest hd hb hbuf he]
  dsimp only
  have z1 : ¬ ((0 : Int) = -1) := by decide
  have z2 : ¬ ((0 : Int) = -2) := by decide
  rw [if_neg z1, if_neg z2]
  unfold fillSlots
  by_cases hm : strncmp_eq (strlen path) (name b) path = true
  · by_cases hc : count < c
    · rw [if_pos hm, if_pos hc, if_pos ⟨hm, hc⟩]; rfl
    · rw [if_pos hm, if_neg hc, if_neg (fun h => hc h.2)]; rfl
  · rw [if_neg hm, if_neg (fun h => hm h.1)]; rfl

theorem fillSlots_cons (path : List Nat) (c : Nat) (b : List Nat) (bs : List (List Nat))
    (entries : List (List Nat)) (count : Nat) :
    fillSlots path c (b :: bs) entries count =
      fillSlots path c bs (fillSlots path c [b] entries count).1
        (fillSlots path c [b] entries count).2 := by
  simp only [fillSlots]
  split <;> rfl

theorem list_loop_scan (path : List Nat) (c : Nat) (bs : List (List Nat)) :
    ∀ (fuel : Nat) (fd : Fd) (header rest : List Nat) (entries : List (List Nat))
      (count : Nat),
      (∀ b ∈ bs, isHeaderBlock b) →
      fd.data.drop fd.pos = blocksBytes bs ++ rest →
      (∀ p, fd.err p = false) →
      header.length = 512 →
      ∃ header', header'.length = 512 ∧
        list_loop path c (fuel + bs.length) fd header entries count =
          list_loop path c fuel { fd with pos := fd.pos + 512 * bs.length } header'
            (fillSlots path c bs entries count).1 (fillSlots path c bs entries count).2 := by
  induction bs with
  | nil =>
    intro fuel fd header rest entries count _ _ _ hbuf
    exact ⟨header, hbuf, by simp [fd_pos_eta, fillSlots]⟩
  | cons b bs ih =>
    intro fuel fd header rest entries count hs hd he hbuf
    have hb := hs b (List.mem_cons_self _ _)
    have hd1 : fd.data.drop fd.pos = b ++ (blocksBytes bs ++ rest) := by
      rw [hd]; simp [blocksBytes]
    have hstep := list_loop_header path c (fuel + bs.length) fd header b
      (blocksBytes bs ++ rest) entries count hd1 hb (he _) hbuf
    have hd2 : ({ fd with pos := fd.pos + 512 } : Fd).data.drop
        ({ fd with pos := fd.pos + 512 } : Fd).pos = blocksBytes bs ++ rest := by
      show fd.data.drop (fd.pos + 512) = _
      rw [← List.drop_drop, hd1, List.drop_left' hb.1]
    obtain ⟨header', hl, hih⟩ := ih fuel { fd with pos := fd.pos + 512 } b rest
      (fillSlots path c [b] entries count).1 (fillSlots path c [b] entries count).2
      (fun x hx => hs x (List.mem_cons_of_mem _ hx)) hd2 he hb.1
    refine ⟨header', hl, ?_⟩
    show list_loop path c (fuel + bs.length + 1) fd header entries count = _
    rw [hstep, hih, ← fillSlots_cons]
    simp only [List.length_cons]
    have e1 : fd.pos + 512 + 512 * bs.length = fd.pos + 512 * (bs.length + 1) := by omega
    rw [e1]

theorem slots_getD_set_ne (l : List (List Nat)) (i j : Nat) (x : List Nat) (h : i ≠ j) :
    (l.set i x).getD j [] = l.getD j [] := by
  simp [List.getElem?_set, h]

theorem slots_getD_set_self (l : List (List Nat)) (i : Nat) (x : List Nat)
    (h : i < l.length) : (l.set i x).getD i [] = x := by
  simp [List.getElem?_set, h]

theorem fillSlots_length (path : List Nat) (c : Nat) (bs : List (List Nat)) :
    ∀ (entries : List (List Nat)) (count : Nat),
      (fillSlots path c bs entries count).1.length = entries.length := by
  induction bs with
  | nil => intro entries count; rfl
  | cons b bs ih =>
    intro entries count
    simp only [fillSlots]
    split
    · rw [ih, List.length_set]
    · rw [ih]

theorem fillSlots_count (path : List Nat) (c : Nat) (bs : List (List Nat)) :
    ∀ (entries : List (List Nat)) (count : Nat), count ≤ c →
      (fillSlots path c bs entries count).2 =
        min c (count + (bs.filter (matchesPath path)).length) := by
  induction bs with
  | nil => intro entries count h; simp [fillSlots]; omega
  | cons b bs ih =>
    intro entries count h
    simp only [fillSlots]
    by_cases hm : matchesPath path b = true
    · rw [List.filter_cons_of_pos hm, List.length_cons]
      by_cases hc : count < c
      · rw [if_pos ⟨hm, hc⟩, ih _ _ (by omega)]
        congr 1; omega
      · rw [if_neg (fun h => hc h.2), ih _ _ h]
        omega
    · rw [List.filter_cons_of_neg hm, if_neg (fun h => hm h.1), ih _ _ h]

theorem fillSlots_getD (path : List Nat) (c : Nat) (bs : List (List Nat)) :
    ∀ (entries : List (List Nat)) (count i : Nat),
      (fillSlots path c bs entries count).1.getD i [] =
        if count ≤ i ∧
            i < min c (count +
              (bs.filter (matchesPath path)).length) ∧
            i < entries.length then
          store_name (entries.getD i [])
            (name ((bs.filter (matchesPath path)).getD
              (i - count) []))
        else entries.getD i [] := by
  induction bs with
  | nil =>
    intro entries count i
    rw [if_neg]
    · rfl
    · simp only [List.filter_nil, List.length_nil]; omega
  | cons b bs ih =>
    intro entries count i
    simp only [fillSlots]
    by_cases hm : matchesPath path b = true
    · rw [List.filter_cons_of_pos hm, List.length_cons]
      by_cases hc : count < c
      · rw [if_pos ⟨hm, hc⟩, ih, List.length_set]
        by_cases h1 : i = count
        · subst h1
          rw [if_neg (by omega)]
          by_cases h2 : i < entries.length
          · rw [if_pos ⟨Nat.le_refl _, by omega, h2⟩, slots_getD_set_self _ _ _ h2,
              Nat.sub_self]
            rfl
          · rw [if_neg (fun h => h2 h.2.2), List.set_eq_of_length_le (by omega)]
        · rw [slots_getD_set_ne _ _ _ _ (fun h => h1 h.symm)]
          by_cases h3 : count + 1 ≤ i ∧ i < min c (count + 1 +
              (bs.filter (matchesPath path)).length) ∧
              i < entries.length
          · rw [if_pos h3, if_pos ⟨by omega, by omega, h3.2.2⟩]
            have hk : i - count = (i - (count + 1)) + 1 := by omega
            rw [hk, List.getD_cons_succ]
          · rw [if_neg h3, if_neg (by omega)]
      · rw [if_neg (fun h => hc h.2), ih, if_neg (by omega), if_neg (by omega)]
    · rw [List.filter_cons_of_neg hm, if_neg (fun h => hm h.1), ih]

theorem list_reach (path : List Nat) (c fuel : Nat) (fd : Fd) (header : List Nat)
    (entries : List (List Nat)) (bs : List (List Nat)) (tail : List Nat)
    (hbs : ∀ b ∈ bs, isHeaderBlock b)
    (hd : fd.data.drop fd.pos = blocksBytes bs ++ tail) (htail : endOfArchive tail)
    (herr : ∀ p, fd.err p = false) (hbuf : header.length = 512) :
    ∃ fd', list (fuel + 1 + bs.length) fd header path entries c =
      some ⟨if (fillSlots path c bs entries 0).2 > 0 then 1 else 0,
        (fillSlots path c bs entries 0).1, (fillSlots path c bs entries 0).2, fd'⟩ := by
  obtain ⟨header', _, h⟩ := list_loop_scan path c bs (fuel + 1) fd header tail entries 0
    hbs hd herr hbuf
  have hd1 : ({ fd with pos := fd.pos + 512 * bs.length } : Fd).data.drop
      ({ fd with pos := fd.pos + 512 * bs.length } : Fd).pos = tail := by
    show fd.data.drop (fd.pos + 512 * bs.length) = tail
    rw [← List.drop_drop, hd]
    exact List.drop_left' (blocksBytes_length bs (fun b hb => (hbs b hb).1))
  refine ⟨(read_next_header ⟨fd.data, fd.err, fd.pos + 512 * bs.length⟩ header').2.2, ?_⟩
  unfold list
  rw [h, list_loop_end path c fuel _ header' tail _ _ hd1 htail (herr _)]

theorem fillSlots_no_match (path : List Nat) (c : Nat) (bs : List (List Nat))
    (entries : List (List Nat)) (count : Nat)
    (h : ∀ b ∈ bs, matchesPath path b = false) :
    fillSlots path c bs entries count = (entries, count) := by
  induction bs with
  | nil => rfl
  | cons b bs ih =>
    have hb : ¬ (strncmp_eq (strlen path) (name b) path = true ∧ count < c) := by
      intro hx
      have := h b (List.mem_cons_self _ _)
      unfold matchesPath at this
      rw [this] at hx
      exact absurd hx.1 (by decide)
    simp only [fillSlots]
    rw [if_neg hb]
    exact ih (fun x hx => h x (List.mem_cons_of_mem _ hx))

theorem list_loop_frame (path : List Nat) (c : Nat) :
    ∀ (fuel : Nat) (fd : Fd) (header : List Nat) (entries : List (List Nat)) (count : Nat)
      (r : ListResult), count ≤ c →
      list_loop path c fuel fd header entries count = some r →
      r.entries.length = entries.length ∧ count ≤ r.no_entries ∧ r.no_entries ≤ c ∧
        ∀ i, r.no_entries ≤ i → r.entries.getD i [] = entries.getD i [] := by
  intro fuel
  induction fuel with
  | zero => intro fd header entries count r _ h; simp [list_loop] at h
  | succ n ih =>
    intro fd header entries count r hc h
    rw [list_loop] at h
    split at h
    · cases h
      exact ⟨rfl, Nat.le_refl _, hc, fun _ _ => rfl⟩
    · split at h
      · cases h
        exact ⟨rfl, hc, Nat.le_refl _, fun _ _ => rfl⟩
      · split at h
        · split at h
          · obtain ⟨h1, h2, h3, h4⟩ := ih _ _ _ _ r (by omega) h
            rw [List.length_set] at h1
            refine ⟨h1, by omega, h3, ?_⟩
            intro i hi
            rw [h4 i hi, slots_getD_set_ne _ _ _ _ (by omega)]
          · exact ih _ _ _ _ r hc h
        · exact ih _ _ _ _ r hc h

/-! ## Scans from two descriptors that hold the same bytes from their offsets on -/

theorem read_sameFrom (a b : Fd) (buf : List Nat) (n : Nat) (h : sameFrom a b) :
    (read a buf n).1 = (read b buf n).1 ∧ (read a buf n).2.1 = (read b buf n).2.1 ∧
      sameFrom (read a buf n).2.2 (read b buf n).2.2 := by
  obtain ⟨hd, he⟩ := h
  have he0 : a.err a.pos = b.err b.pos := by simpa using he 0
  unfold read
  rw [← he0, ← hd]
  cases hx : a.err a.pos
  · simp only [Bool.false_eq_true, if_false]
    refine ⟨trivial, trivial, ?_, ?_⟩
    · show a.data.drop (a.pos + _) = b.data.drop (b.pos + _)
      rw [← List.drop_drop, ← List.drop_drop, hd]
    · intro k
      show a.err (a.pos + _ + k) = b.err (b.pos + _ + k)
      rw [Nat.add_assoc, Nat.add_assoc]
      exact he _
  · simp only [if_true]
    exact ⟨trivial, trivial, hd, he⟩

theorem read_next_header_sameFrom (a b : Fd) (header : List Nat) (h : sameFrom a b) :
    (read_next_header a header).1 = (read_next_header b header).1 ∧
      (read_next_header a header).2.1 = (read_next_header b header).2.1 ∧
      sameFrom (read_next_header a header).2.2 (read_next_header b header).2.2 := by
  obtain ⟨h1, h2, h3⟩ := read_sameFrom a b header BLOCK_SIZE h
  unfold read_next_header
  dsimp only
  rw [← h1, ← h2]
  split
  · exact ⟨rfl, rfl, h3⟩
  · split
    · exact ⟨rfl, rfl, h3⟩
    · split
      · exact ⟨rfl, rfl, h3⟩
      · exact ⟨rfl, rfl, h3⟩

theorem list_loop_sameFrom (path : List Nat) (c : Nat) :
    ∀ (fuel : Nat) (a b : Fd) (header : List Nat) (entries : List (List Nat)) (count : Nat),
      sameFrom a b →
      (list_loop path c fuel a header entries count).map
          (fun r => (r.ret, r.entries, r.no_entries)) =
        (list_loop path c fuel b header entries count).map
          (fun r => (r.ret, r.entries, r.no_entries)) := by
  intro fuel
  induction fuel with
  | zero => intro a b header entries count _; rfl
  | succ n ih =>
    intro a b header entries count h
    obtain ⟨h1, h2, h3⟩ := read_next_header_sameFrom a b header h
    rw [list_loop, list_loop]
    rw [← h1, ← h2]
    split
    · rfl
    · split
      · rfl
      · split
        · split
          · exact ih _ _ _ _ _ h3
          · exact ih _ _ _ _ _ h3
        · exact ih _ _ _ _ _ h3

theorem read_next_header_fd (a : Fd) (header : List Nat) :
    (read_next_header a header).2.2.data = a.data ∧
      (read_next_header a header).2.2.err = a.err ∧
      ((read_next_header a header).1 = 0 →
        (read_next_header a header).2.2.pos ≤ a.data.length) := by
  unfold read_next_header read
  cases hx : a.err a.pos
  · simp only [Bool.false_eq_true, if_false, BLOCK_SIZE]
    split
    · exact ⟨rfl, rfl, fun h => absurd (show (-1 : Int) = 0 from h) (by decide)⟩
    · split
      · exact ⟨rfl, rfl, fun h => absurd (show (-2 : Int) = 0 from h) (by decide)⟩
      · split
        · exact ⟨rfl, rfl, fun h => absurd (show (-1 : Int) = 0 from h) (by decide)⟩
        · rename_i h5
          refine ⟨rfl, rfl, fun _ => ?_⟩
          have hl : ((a.data.drop a.pos).take 512).length = 512 := by
            by_contra hne
            apply h5
            left
            intro heq
            apply hne
            exact_mod_cast heq
          show a.pos + ((a.data.drop a.pos).take 512).length ≤ a.data.length
          rw [List.length_take, List.length_drop] at hl ⊢
          omega
  · simp only [if_true]
    rw [if_neg (by decide), if_pos (by decide)]
    exact ⟨rfl, rfl, fun h => absurd (show (-2 : Int) = 0 from h) (by decide)⟩

theorem read_file_loop_sameFrom (path : List Nat) (offset : Nat) (dest : List Nat)
    (len : Nat) :
    ∀ (fuel : Nat) (a b : Fd) (header : List Nat),
      sameFrom a b →
      a.data.length + offset < 9223372036854775808 →
      b.data.length + offset < 9223372036854775808 →
      (read_file_loop path offset dest len fuel a header).map
          (fun r => (r.ret, r.dest, r.len)) =
        (read_file_loop path offset dest len fuel b header).map
          (fun r => (r.ret, r.dest, r.len)) := by
  intro fuel
  induction fuel with
  | zero => intro a b header _ _ _; rfl
  | succ n ih =>
    intro a b header h ha hb
    obtain ⟨h1, h2, h3⟩ := read_next_header_sameFrom a b header h
    obtain ⟨ad, _, ap⟩ := read_next_header_fd a header
    obtain ⟨bd, _, bp⟩ := read_next_header_fd b header
    rw [read_file_loop, read_file_loop]
    rw [← h1] at bp
    rw [← h1, ← h2]
    split
    · rfl
    · split
      · rfl
      · rename_i hs1 hs2
        have hz : (read_next_header a header).1 = 0 := by
          unfold read_next_header at hs1 hs2 ⊢
          dsimp only at hs1 hs2 ⊢
          split
          · rename_i hq; rw [if_pos hq] at hs1; exact absurd rfl hs1
          · rename_i hq
            split
            · rename_i hq2; rw [if_neg hq, if_pos hq2] at hs2; exact absurd rfl hs2
            · rename_i hq2
              split
              · rename_i hq3; rw [if_neg hq, if_neg hq2, if_pos hq3] at hs1
                exact absurd rfl hs1
              · rfl
        split
        · dsimp only
          split
          · rfl
          · have sa := lseek_cur_small (read_next_header a header).2.2 offset
              (by have := ap hz; omega)
            have sb := lseek_cur_small (read_next_header b header).2.2 offset
              (by have := bp hz; omega)
            rw [sa, sb]
            have hsf : sameFrom
                { (read_next_header a header).2.2 with
                  pos := (read_next_header a header).2.2.pos + offset }
                { (read_next_header b header).2.2 with
                  pos := (read_next_header b header).2.2.pos + offset } := by
              obtain ⟨hd3, he3⟩ := h3
              refine ⟨?_, ?_⟩
              · show List.drop (_ + offset) _ = List.drop (_ + offset) _
                rw [← List.drop_drop, ← List.drop_drop, hd3]
              · intro k
                show (read_next_header a header).2.2.err (_ + offset + k) =
                  (read_next_header b header).2.2.err (_ + offset + k)
                rw [Nat.add_assoc, Nat.add_assoc]
                exact he3 _
            obtain ⟨r1, r2, _⟩ := read_sameFrom _ _ dest
              (if toSizeT (TAR_INT (size (read_next_header a header).2.1)) - offset > len
                then len
                else toSizeT (TAR_INT (size (read_next_header a header).2.1)) - offset) hsf
            simp only [Option.map_some', r1, r2]
        · exact ih _ _ _ h3 (by rw [ad]; exact ha) (by rw [bd]; exact hb)

/-! ## Properties of `check_archive` -/

theorem check_archive_reach (es : List Entry) (rest : List Nat) (err : Nat → Bool)
    (header : List Nat) (fuel : Nat)
    (hwf : ∀ e ∈ es, WellFormedEntry e) (herr : ∀ p, err p = false)
    (hlen : (entriesBytes es).length < 9223372036854775808)
    (hcount : es.length < 2147483648) (hbuf : header.length = 512) :
    ∃ header', header'.length = 512 ∧
      check_archive (fuel + es.length) ⟨entriesBytes es ++ rest, err, 0⟩ header =
        check_archive_loop fuel ⟨entriesBytes es ++ rest, err, (entriesBytes es).length⟩
          header' (es.length : Int) := by
  obtain ⟨header', hl, h⟩ := check_archive_loop_entries es fuel
    ⟨entriesBytes es ++ rest, err, 0⟩ header rest 0 hwf (by simp) herr hbuf
    (by simpa using hlen) (by omega)
  refine ⟨header', hl, ?_⟩
  unfold check_archive
  rw [h]
  simp

/-- C1: on a well-formed archive (valid headers, each regular file followed
by its content blocks, two all-zero blocks at the end) read from offset 0,
with no failing read, `check_archive` returns the number of headers of the
archive, which is none of -1, -2 and -3. -/
theorem check_archive_counts_headers (es : List Entry) (err : Nat → Bool)
    (header : List Nat) (fuel : Nat)
    (hwf : ∀ e ∈ es, WellFormedEntry e) (herr : ∀ p, err p = false)
    (hlen : (archiveBytes es).length < 9223372036854775808)
    (hcount : es.length < 2147483648) (hbuf : header.length = 512)
    (hfuel : es.length < fuel) :
    check_archive fuel ⟨archiveBytes es, err, 0⟩ header =
        some ((es.length : Int), ⟨archiveBytes es, err, (entriesBytes es).length + 512⟩) ∧
      (es.length : Int) ≠ -1 ∧ (es.length : Int) ≠ -2 ∧ (es.length : Int) ≠ -3 := by
  refine ⟨?_, by omega, by omega, by omega⟩
  have hlen' : (entriesBytes es).length < 9223372036854775808 := by
    simp only [archiveBytes, List.length_append, List.length_replicate] at hlen; omega
  obtain ⟨header', hl, h⟩ := check_archive_reach es (List.replicate 1024 0) err header
    (fuel - es.length) hwf herr hlen' hcount hbuf
  have hf : fuel - es.length + es.length = fuel := by omega
  rw [hf] at h
  unfold archiveBytes
  rw [h]
  obtain ⟨f', hf'⟩ : ∃ f', fuel - es.length = f' + 1 := ⟨fuel - es.length - 1, by omega⟩
  rw [hf']
  have hz : List.replicate 1024 0 = List.replicate 512 0 ++ List.replicate 512 0 := by
    rw [← List.replicate_add]
  have hd : (⟨entriesBytes es ++ List.replicate 1024 0, err, (entriesBytes es).length⟩ : Fd).data.drop
      (entriesBytes es).length = List.replicate 512 0 ++ List.replicate 512 0 := by
    show List.drop (entriesBytes es).length (entriesBytes es ++ List.replicate 1024 0) = _
    rw [List.drop_left, hz]
  rw [check_archive_loop_end f' _ header' (List.replicate 512 0) _ hd (herr _) hl]
theorem check_archive_at_header (es : List Entry) (h rest : List Nat) (err : Nat → Bool)
    (header : List Nat) (fuel : Nat)
    (hwf : ∀ e ∈ es, WellFormedEntry e) (hh : isHeaderBlock h)
    (herr : ∀ p, err p = false)
    (hlen : (entriesBytes es).length < 9223372036854775808)
    (hcount : es.length < 2147483648) (hbuf : header.length = 512) :
    check_archive (fuel + 1 + es.length) ⟨entriesBytes es ++ (h ++ rest), err, 0⟩ header =
      if ¬ magicOk h then
        some (-1, ⟨entriesBytes es ++ (h ++ rest), err, (entriesBytes es).length + 512⟩)
      else if ¬ versionOk h then
        some (-2, ⟨entriesBytes es ++ (h ++ rest), err, (entriesBytes es).length + 512⟩)
      else if declaredChecksum h ≠ compute_checksum h then
        some (-3, ⟨entriesBytes es ++ (h ++ rest), err, (entriesBytes es).length + 512⟩)
      else if 2147483647 ≤ (es.length : Int) then none
      else check_archive_loop fuel
        (skip_data ⟨entriesBytes es ++ (h ++ rest), err, (entriesBytes es).length + 512⟩ h)
        h ((es.length : Int) + 1) := by
  obtain ⟨header', hl, hr⟩ := check_archive_reach es (h ++ rest) err header (fuel + 1)
    hwf herr hlen hcount hbuf
  rw [hr]
  exact check_archive_loop_header fuel _ header' h rest _
    (by show List.drop (entriesBytes es).length (entriesBytes es ++ (h ++ rest)) = _
        rw [List.drop_left]) hh (herr _) hl

/-- C2: at a header block that `check_archive` reaches after the headers
before it have passed, the outcome follows the priority magic, version,
checksum: -1 when the magic is not "ustar" and NUL; -2 when the magic is
right and the version is not "00"; -3 when both are right and the declared
checksum differs from `compute_checksum`; and when all three match the scan
goes on with the header counted. -/
theorem check_archive_priority (es : List Entry) (h rest : List Nat) (err : Nat → Bool)
    (header : List Nat) (fuel : Nat)
    (hwf : ∀ e ∈ es, WellFormedEntry e) (hh : isHeaderBlock h)
    (herr : ∀ p, err p = false)
    (hlen : (entriesBytes es).length < 9223372036854775808)
    (hcount : es.length < 2147483647) (hbuf : header.length = 512) :
    (¬ magicOk h →
      check_archive (fuel + 1 + es.length) ⟨entriesBytes es ++ (h ++ rest), err, 0⟩ header =
        some (-1, ⟨entriesBytes es ++ (h ++ rest), err, (entriesBytes es).length + 512⟩)) ∧
    (magicOk h → ¬ versionOk h →
      check_archive (fuel + 1 + es.length) ⟨entriesBytes es ++ (h ++ rest), err, 0⟩ header =
        some (-2, ⟨entriesBytes es ++ (h ++ rest), err, (entriesBytes es).length + 512⟩)) ∧
    (magicOk h → versionOk h → declaredChecksum h ≠ compute_checksum h →
      check_archive (fuel + 1 + es.length) ⟨entriesBytes es ++ (h ++ rest), err, 0⟩ header =
        some (-3, ⟨entriesBytes es ++ (h ++ rest), err, (entriesBytes es).length + 512⟩)) ∧
    (magicOk h → versionOk h → declaredChecksum h = compute_checksum h →
      check_archive (fuel + 1 + es.length) ⟨entriesBytes es ++ (h ++ rest), err, 0⟩ header =
        check_archive_loop fuel
          (skip_data ⟨entriesBytes es ++ (h ++ rest), err, (entriesBytes es).length + 512⟩ h)
          h ((es.length : Int) + 1)) := by
  have key := check_archive_at_header es h rest err header fuel hwf hh herr hlen
    (by omega) hbuf
  have hc : ¬ (2147483647 ≤ (es.length : Int)) := by omega
  refine ⟨?_, ?_, ?_, ?_⟩
  · intro h1
    rw [key, if_pos h1]
  · intro h1 h2
    rw [key, if_neg (not_not.mpr h1), if_pos h2]
  · intro h1 h2 h3
    rw [key, if_neg (not_not.mpr h1), if_neg (not_not.mpr h2), if_pos h3]
  · intro h1 h2 h3
    rw [key, if_neg (not_not.mpr h1), if_neg (not_not.mpr h2), if_neg (not_not.mpr h3),
      if_neg hc]

/-- C3 (amended): when every header before it is valid, a header whose magic
is corrupted makes `check_archive` return -1, whatever its own version and
checksum are and whatever follows it (later headers may be corrupted too). -/
theorem check_archive_first_failure_magic (es : List Entry) (h rest : List Nat)
    (err : Nat → Bool) (header : List Nat) (fuel : Nat)
    (hwf : ∀ e ∈ es, WellFormedEntry e) (hh : isHeaderBlock h) (hm : ¬ magicOk h)
    (herr : ∀ p, err p = false)
    (hlen : (entriesBytes es).length < 9223372036854775808)
    (hcount : es.length < 2147483648) (hbuf : header.length = 512)
    (hfuel : es.length < fuel) :
    check_archive fuel ⟨entriesBytes es ++ (h ++ rest), err, 0⟩ header =
      some (-1, ⟨entriesBytes es ++ (h ++ rest), err, (entriesBytes es).length + 512⟩) := by
  have key := check_archive_at_header es h rest err header (fuel - es.length - 1) hwf hh herr
    hlen hcount hbuf
  have hf : fuel - es.length - 1 + 1 + es.length = fuel := by omega
  rw [hf, if_pos hm] at key
  exact key
/-- C4 (amended): on an archive made of a single valid header and the
terminator, a change of one byte of the checksum field (offsets 148..155)
that changes the declared checksum as `check_archive` compares it, that is
the value of `TAR_INT` on the field converted to `unsigned int` (reduced
modulo 2^32), makes `check_archive` return -3, without counting the
header. -/
theorem check_archive_checksum_tamper (h : List Nat) (i b : Nat) (err : Nat → Bool)
    (header : List Nat) (fuel : Nat)
    (hv : ValidHeader h) (h1 : 148 ≤ i) (h2 : i < 156)
    (hd : declaredChecksum (h.set i b) ≠ declaredChecksum h)
    (herr : err 0 = false) (hbuf : header.length = 512) (hfuel : 0 < fuel) :
    check_archive fuel ⟨h.set i b ++ List.replicate 1024 0, err, 0⟩ header =
      some (-3, ⟨h.set i b ++ List.replicate 1024 0, err, 512⟩) := by
  obtain ⟨hblk, hmag, hver, hchk⟩ := hv
  obtain ⟨f, hf⟩ : ∃ f, fuel = f + 1 := ⟨fuel - 1, by omega⟩
  have key := check_archive_loop_header f ⟨h.set i b ++ List.replicate 1024 0, err, 0⟩ header
    (h.set i b) (List.replicate 1024 0) 0 rfl (isHeaderBlock_set h i b (by omega) hblk)
    herr hbuf
  have hm : ¬ ¬ magicOk (h.set i b) := not_not.mpr ((magicOk_set h i b (by omega)).2 hmag)
  have hv : ¬ ¬ versionOk (h.set i b) :=
    not_not.mpr ((versionOk_set h i b (by omega)).2 hver)
  have hc : declaredChecksum (h.set i b) ≠ compute_checksum (h.set i b) := by
    rw [compute_checksum_set h i b h1 h2, ← hchk]; exact hd
  rw [if_neg hm, if_neg hv, if_pos hc] at key
  rw [hf]
  exact key
/-! ## Properties of `exists` and of the derived predicates -/

theorem exists_scan_from_start (fd : Fd) (buf path : List Nat) (k fuel : Nat)
    (hk : 512 * (k + 1) ≤ fd.data.length) (herr : ∀ p, fd.err p = false)
    (hnz : blockAt fd.data k ≠ null_block)
    (hm : strcmp_eq path (name (blockAt fd.data k)) = true)
    (hfirst : ∀ j, j < k → blockAt fd.data j = null_block ∨
      strcmp_eq path (name (blockAt fd.data j)) = false)
    (hpair : ∀ j, j + 1 < k → ¬ (blockAt fd.data j = null_block ∧
      blockAt fd.data (j + 1) = null_block))
    (hbuf : buf.length = 512) (hfuel : k < fuel) :
    exists_ fuel fd buf path =
      some (classify (typeflag (blockAt fd.data k)), ⟨fd.data, fd.err, 512 * (k + 1)⟩) := by
  have h := exists_loop_scan path fd.data fd.err k hk herr hnz hm hfirst hpair k 0 0 buf
    (fuel - k - 1) (by omega) (Or.inl rfl) hbuf
  have hf : fuel - k - 1 + k + 1 = fuel := by omega
  rw [hf] at h
  exact h

/-- C6: when the first non-zero block whose name equals `path` (block `k`)
comes before any two consecutive all-zero blocks, and no read fails,
`exists` returns the class of the type flag of that block: 1 for a regular
file (the character 0 or NUL), 2 for a directory (5), 3 for a hard link (1),
4 for a symbolic link (2). -/
theorem exists_classifies_first_match (fd : Fd) (buf path : List Nat) (k fuel : Nat)
    (hk : 512 * (k + 1) ≤ fd.data.length) (herr : ∀ p, fd.err p = false)
    (hnz : blockAt fd.data k ≠ null_block)
    (hm : strcmp_eq path (name (blockAt fd.data k)) = true)
    (hfirst : ∀ j, j < k → blockAt fd.data j = null_block ∨
      strcmp_eq path (name (blockAt fd.data j)) = false)
    (hpair : ∀ j, j + 1 < k → ¬ (blockAt fd.data j = null_block ∧
      blockAt fd.data (j + 1) = null_block))
    (hbuf : buf.length = 512) (hfuel : k < fuel) :
    (typeflag (blockAt fd.data k) = 48 ∨ typeflag (blockAt fd.data k) = 0 →
      exists_ fuel fd buf path = some (1, ⟨fd.data, fd.err, 512 * (k + 1)⟩)) ∧
    (typeflag (blockAt fd.data k) = 53 →
      exists_ fuel fd buf path = some (2, ⟨fd.data, fd.err, 512 * (k + 1)⟩)) ∧
    (typeflag (blockAt fd.data k) = 49 →
      exists_ fuel fd buf path = some (3, ⟨fd.data, fd.err, 512 * (k + 1)⟩)) ∧
    (typeflag (blockAt fd.data k) = 50 →
      exists_ fuel fd buf path = some (4, ⟨fd.data, fd.err, 512 * (k + 1)⟩)) := by
  have h := exists_scan_from_start fd buf path k fuel hk herr hnz hm hfirst hpair hbuf hfuel
  refine ⟨?_, ?_, ?_, ?_⟩
  · intro ht
    rw [h]
    have : classify (typeflag (blockAt fd.data k)) = 1 := by
      unfold classify; rw [if_pos (by simpa [REGTYPE, AREGTYPE] using ht)]
    rw [this]
  · intro ht
    rw [h, ht]; rfl
  · intro ht
    rw [h, ht]; rfl
  · intro ht
    rw [h, ht]; rfl
theorem exists_offset_irrelevant (fuel : Nat) (data : List Nat) (err : Nat → Bool)
    (p : Nat) (buf path : List Nat) :
    exists_ fuel ⟨data, err, p⟩ buf path = exists_ fuel ⟨data, err, 0⟩ buf path := rfl

/-- C7: `is_file`, `is_dir` and `is_symlink` are projections of `exists`:
each returns non-zero exactly when `exists` returns 1, 2 and 4 respectively.
Hence, for one archive and path, whatever the offsets of the descriptor (and
whatever the uninitialised header buffers, on an archive of at least one
block), at most one of the three is non-zero, and the three are zero when
`exists` returns 0. -/
theorem is_file_is_dir_is_symlink_project (fuel : Nat) (data : List Nat)
    (err : Nat → Bool) (p p1 p2 : Nat) (buf buf1 buf2 path : List Nat)
    (hbufs : (buf1 = buf ∧ buf2 = buf) ∨
      (512 ≤ data.length ∧ buf.length = 512 ∧ buf1.length = 512 ∧ buf2.length = 512)) :
    ((∃ f fd', is_file fuel ⟨data, err, p⟩ buf path = some (f, fd') ∧ f ≠ 0) ↔
      (∃ fd', exists_ fuel ⟨data, err, p⟩ buf path = some (1, fd'))) ∧
    ((∃ d fd', is_dir fuel ⟨data, err, p⟩ buf path = some (d, fd') ∧ d ≠ 0) ↔
      (∃ fd', exists_ fuel ⟨data, err, p⟩ buf path = some (2, fd'))) ∧
    ((∃ s fd', is_symlink fuel ⟨data, err, p⟩ buf path = some (s, fd') ∧ s ≠ 0) ↔
      (∃ fd', exists_ fuel ⟨data, err, p⟩ buf path = some (4, fd'))) ∧
    (∀ f d s ff fd fs, is_file fuel ⟨data, err, p⟩ buf path = some (f, ff) →
      is_dir fuel ⟨data, err, p1⟩ buf1 path = some (d, fd) →
      is_symlink fuel ⟨data, err, p2⟩ buf2 path = some (s, fs) →
      ¬ (f ≠ 0 ∧ d ≠ 0) ∧ ¬ (f ≠ 0 ∧ s ≠ 0) ∧ ¬ (d ≠ 0 ∧ s ≠ 0)) ∧
    (∀ fd', exists_ fuel ⟨data, err, p⟩ buf path = some (0, fd') →
      is_file fuel ⟨data, err, p⟩ buf path = some (0, fd') ∧
      is_dir fuel ⟨data, err, p1⟩ buf1 path = some (0, fd') ∧
      is_symlink fuel ⟨data, err, p2⟩ buf2 path = some (0, fd')) := by
  have e0 := exists_offset_irrelevant fuel data err p buf path
  have e1 : exists_ fuel ⟨data, err, p1⟩ buf1 path = exists_ fuel ⟨data, err, 0⟩ buf path := by
    rcases hbufs with ⟨h1, _⟩ | ⟨hl, hb, hb1, _⟩
    · rw [h1]; rfl
    · exact exists_loop_first_read path data err fuel buf1 buf hl hb1 hb
  have e2 : exists_ fuel ⟨data, err, p2⟩ buf2 path = exists_ fuel ⟨data, err, 0⟩ buf path := by
    rcases hbufs with ⟨_, h2⟩ | ⟨hl, hb, _, hb2⟩
    · rw [h2]; rfl
    · exact exists_loop_first_read path data err fuel buf2 buf hl hb2 hb
  unfold is_file is_dir is_symlink
  rw [e1, e2, e0]
  cases hx : exists_ fuel ⟨data, err, 0⟩ buf path with
  | none => simp
  | some r =>
    obtain ⟨v, fd0⟩ := r
    simp only [Option.map_some', Option.some.injEq, Prod.mk.injEq, boolToInt]
    refine ⟨?_, ?_, ?_, ?_, ?_⟩
    · constructor
      · rintro ⟨f, fd', ⟨hf, hfd⟩, hne⟩
        refine ⟨fd', ?_, hfd⟩
        by_contra hv
        apply hne
        rw [← hf]; simp [hv]
      · rintro ⟨fd', hv, hfd⟩
        exact ⟨1, fd', ⟨by simp [hv], hfd⟩, by decide⟩
    · constructor
      · rintro ⟨f, fd', ⟨hf, hfd⟩, hne⟩
        refine ⟨fd', ?_, hfd⟩
        by_contra hv
        apply hne
        rw [← hf]; simp [hv]
      · rintro ⟨fd', hv, hfd⟩
        exact ⟨1, fd', ⟨by simp [hv], hfd⟩, by decide⟩
    · constructor
      · rintro ⟨f, fd', ⟨hf, hfd⟩, hne⟩
        refine ⟨fd', ?_, hfd⟩
        by_contra hv
        apply hne
        rw [← hf]; simp [hv]
      · rintro ⟨fd', hv, hfd⟩
        exact ⟨1, fd', ⟨by simp [hv], hfd⟩, by decide⟩
    · rintro f d s ff fd fs ⟨hf, _⟩ ⟨hd, _⟩ ⟨hs, _⟩
      subst hf hd hs
      by_cases h1 : v = 1
      · subst h1; simp
      · by_cases h2 : v = 2
        · subst h2; simp
        · simp [h1, h2]
    · rintro fd' ⟨hv, hfd⟩
      subst hv
      simp [hfd]

/-- C8: on an archive of at least one block, the result of `exists` depends
only on the bytes of the archive and on the path: it is the same whatever
the offset of the descriptor and the content of the uninitialised header
buffer before the call, and a second call on the descriptor as the first
call left it returns the same value. -/
theorem exists_repeatable (fuel : Nat) (data : List Nat) (err : Nat → Bool) (p1 p2 : Nat)
    (buf1 buf2 buf3 path : List Nat) (hlen : 512 ≤ data.length)
    (h1 : buf1.length = 512) (h2 : buf2.length = 512) (h3 : buf3.length = 512) :
    exists_ fuel ⟨data, err, p1⟩ buf1 path = exists_ fuel ⟨data, err, p2⟩ buf2 path ∧
    (∀ v fd', exists_ fuel ⟨data, err, p1⟩ buf1 path = some (v, fd') →
      exists_ fuel fd' buf3 path = some (v, fd')) := by
  have key : ∀ (q : Nat) (b : List Nat), b.length = 512 →
      exists_ fuel ⟨data, err, q⟩ b path = exists_ fuel ⟨data, err, p1⟩ buf1 path := by
    intro q b hb
    exact exists_loop_first_read path data err fuel b buf1 hlen hb h1
  refine ⟨(key p2 buf2 h2).symm, ?_⟩
  intro v fd' hv
  obtain ⟨hd, he⟩ := exists_loop_fd path fuel _ buf1 0 v fd' hv
  have hfd : fd' = ⟨data, err, fd'.pos⟩ := by
    cases fd'; simp only [lseek_set] at hd he; subst hd he; rfl
  rw [hfd, key fd'.pos buf3 h3, ← hfd]
  exact hv
/-! ## Properties of `read_file` -/

theorem read_file_reach (path : List Nat) (offset : Nat) (dest : List Nat) (len : Nat)
    (fd : Fd) (header : List Nat) (fuel : Nat) (bs : List (List Nat)) (rest : List Nat)
    (hscan : ∀ b ∈ bs, skippable path b)
    (hd : fd.data.drop fd.pos = blocksBytes bs ++ rest)
    (herr : ∀ p, fd.err p = false) (hbuf : header.length = 512) :
    ∃ header', header'.length = 512 ∧
      (⟨fd.data, fd.err, fd.pos + 512 * bs.length⟩ : Fd).data.drop
        (⟨fd.data, fd.err, fd.pos + 512 * bs.length⟩ : Fd).pos = rest ∧
      read_file (fuel + bs.length) fd header path offset dest len =
        read_file_loop path offset dest len fuel ⟨fd.data, fd.err, fd.pos + 512 * bs.length⟩
          header' := by
  obtain ⟨header', hl, h⟩ := read_file_loop_scan path offset dest len bs fuel fd header rest
    hscan hd herr hbuf
  refine ⟨header', hl, ?_, h⟩
  show fd.data.drop (fd.pos + 512 * bs.length) = rest
  rw [← List.drop_drop, hd]
  exact List.drop_left' (blocksBytes_length bs (fun b hb => (hscan b hb).1.1))

/-- C9: when the scan of `read_file` reaches a regular-file header named
`path` of declared size `S`, followed by its `S` content bytes, then for
every `offset < S` and every capacity `len` the function writes
`n = min (S - offset) len` bytes: the first `n` bytes of the destination are
`content[offset .. offset + n)`, the rest of the destination is kept, `*len`
becomes `n` and the return value is `S - offset - n`, which is zero exactly
when the end of the file was reached and positive otherwise. -/
theorem read_file_reads_range (fd : Fd) (header path dest : List Nat)
    (offset len fuel : Nat) (bs : List (List Nat)) (hdr content rest : List Nat)
    (hscan : ∀ b ∈ bs, skippable path b)
    (hd : fd.data.drop fd.pos = blocksBytes bs ++ (hdr ++ (content ++ rest)))
    (hh : isHeaderBlock hdr) (hname : strcmp_eq (name hdr) path = true)
    (hreg : isRegular hdr) (hcont : content.length = declaredSize hdr)
    (herr : ∀ p, fd.err p = false) (hlen : fd.data.length < 9223372036854775808)
    (hoff : offset < declaredSize hdr) (hbuf : header.length = 512)
    (hfuel : bs.length < fuel) :
    ∃ r, read_file fuel fd header path offset dest len = some r ∧
      r.len = min (declaredSize hdr - offset) len ∧
      r.dest.take r.len = (content.drop offset).take r.len ∧
      r.dest.drop r.len = dest.drop r.len ∧
      r.ret = (declaredSize hdr : Int) - (offset : Int) - (r.len : Int) ∧
      (r.ret = 0 ↔ offset + r.len = declaredSize hdr) ∧ 0 ≤ r.ret := by
  obtain ⟨header', hl, hd1, h⟩ := read_file_reach path offset dest len fd header
    (fuel - bs.length - 1 + 1) bs (hdr ++ (content ++ rest)) hscan hd herr hbuf
  have hf : fuel - bs.length - 1 + 1 + bs.length = fuel := by omega
  rw [hf] at h
  have hat := read_file_at_entry path offset dest len (fuel - bs.length - 1)
    ⟨fd.data, fd.err, fd.pos + 512 * bs.length⟩ header' hdr content rest hd1 hh hname hreg
    hcont herr hlen hoff hl
  rw [hat] at h
  refine ⟨_, h, rfl, ?_, ?_, rfl, ?_, ?_⟩
  · have hc : ((content.drop offset).take (min (declaredSize hdr - offset) len)).length =
        min (declaredSize hdr - offset) len := by
      rw [List.length_take, List.length_drop]; omega
    show (overwrite dest _).take _ = _
    unfold overwrite
    exact List.take_left' hc
  · have hc : ((content.drop offset).take (min (declaredSize hdr - offset) len)).length =
        min (declaredSize hdr - offset) len := by
      rw [List.length_take, List.length_drop]; omega
    show (overwrite dest _).drop _ = _
    unfold overwrite
    rw [hc]
    exact List.drop_left' hc
  · show (declaredSize hdr : Int) - (offset : Int) -
      ((min (declaredSize hdr - offset) len : Nat) : Int) = 0 ↔
      offset + min (declaredSize hdr - offset) len = declaredSize hdr
    omega
  · show 0 ≤ (declaredSize hdr : Int) - (offset : Int) -
      ((min (declaredSize hdr - offset) len : Nat) : Int)
    omega

/-- C10: when the scan of `read_file` reaches a regular-file header named
`path` of declared size `S` and `offset ≥ S` (in particular `offset = S`, and
any offset when `S = 0`), the function returns -2, which is not a success,
and leaves `*len` and the destination buffer as they were. -/
theorem read_file_offset_out_of_range (fd : Fd) (header path dest : List Nat)
    (offset len fuel : Nat) (bs : List (List Nat)) (hdr rest : List Nat)
    (hscan : ∀ b ∈ bs, skippable path b)
    (hd : fd.data.drop fd.pos = blocksBytes bs ++ (hdr ++ rest))
    (hh : isHeaderBlock hdr) (hname : strcmp_eq (name hdr) path = true)
    (hreg : isRegular hdr) (herr : ∀ p, fd.err p = false)
    (hoff : declaredSize hdr ≤ offset) (hbuf : header.length = 512)
    (hfuel : bs.length < fuel) :
    read_file fuel fd header path offset dest len =
      some ⟨-2, dest, len, ⟨fd.data, fd.err, fd.pos + 512 * bs.length + 512⟩⟩ := by
  obtain ⟨header', hl, hd1, h⟩ := read_file_reach path offset dest len fd header
    (fuel - bs.length - 1 + 1) bs (hdr ++ rest) hscan hd herr hbuf
  have hf : fuel - bs.length - 1 + 1 + bs.length = fuel := by omega
  rw [hf] at h
  rw [h, read_file_loop_found path offset dest len (fuel - bs.length - 1) _ header' hdr rest
    hd1 hh hname hreg (herr _) hl, if_pos hoff]

/-! ## Properties of `compute_checksum` -/

/-- C16: for a 512-byte header block `b`, `compute_checksum b` is `8 * 32`
plus the sum of the 504 bytes at the offsets outside 148..155; it does not
depend on the bytes of the checksum field, it is at most
`504 * 255 + 256 = 128776`, and the sum does not wrap around in 32-bit
unsigned arithmetic. -/
theorem compute_checksum_formula (b : List Nat) (hlen : b.length = 512)
    (hbytes : ∀ x ∈ b, x < 256) :
    compute_checksum b = 8 * 32 + ((b.take 148).sum + (b.drop 156).sum) ∧
    (∀ i v, 148 ≤ i → i < 156 → compute_checksum (b.set i v) = compute_checksum b) ∧
    compute_checksum b ≤ 504 * 255 + 256 ∧
    plainSum b 0 < 4294967296 ∧ compute_checksum b = plainSum b 0 := by
  obtain ⟨h1, h2⟩ := compute_checksum_block b hlen hbytes
  refine ⟨by rw [h1], fun i v hi1 hi2 => compute_checksum_set b i v hi1 hi2, by omega, ?_, ?_⟩
  · rw [plainSum_block b hlen]; omega
  · rw [plainSum_block b hlen, h1]

/-- C18: let `H` be a header block (of bytes) that `check_archive` accepts as
first block of a stream and whose checksum field holds six octal digits, a
NUL and a space. If one byte of `H` at an offset `i` outside the checksum
field 148..155 is changed to another byte value `b`, the first name byte
staying non-NUL, `check_archive` returns a negative value on the stream: -1
when `i` lies in the magic field, -2 when it lies in the version field, -3
otherwise. -/
theorem check_archive_detects_byte_change (H rest : List Nat) (i b : Nat)
    (err : Nat → Bool) (header : List Nat) (fuel : Nat)
    (hv : ValidHeader H) (hc : canonicalChksum H) (hbytes : ∀ x ∈ H, x < 256)
    (hi : i < 512) (hout : i < 148 ∨ 156 ≤ i) (hb : b < 256) (hne : b ≠ H.getD i 0)
    (hname : (H.set i b).headD 0 ≠ 0)
    (herr : err 0 = false) (hbuf : header.length = 512) (hfuel : 0 < fuel) :
    check_archive fuel ⟨H.set i b ++ rest, err, 0⟩ header =
      some (if 257 ≤ i ∧ i < 263 then -1 else if 263 ≤ i ∧ i < 265 then -2 else -3,
        ⟨H.set i b ++ rest, err, 512⟩) := by
  obtain ⟨hblk, hmag, hver, hchk⟩ := hv
  obtain ⟨f, hf⟩ : ∃ f, fuel = f + 1 := ⟨fuel - 1, by omega⟩
  have hlen : H.length = 512 := hblk.1
  have key := check_archive_loop_header f ⟨H.set i b ++ rest, err, 0⟩ header
    (H.set i b) rest 0 rfl ⟨by rw [List.length_set]; exact hlen, hname⟩ herr hbuf
  rw [hf]
  show check_archive_loop (f + 1) _ header 0 = _
  rw [key]
  by_cases h1 : 257 ≤ i ∧ i < 263
  · have hm : ¬ magicOk (H.set i b) := by
      intro hm
      exact field_set_inside H 257 6 i b h1.1 (by omega) (by omega) hne (hm.trans hmag.symm)
    rw [if_pos hm, if_pos h1]
  · have hm : magicOk (H.set i b) :=
      (field_set_outside H 257 6 i b (by omega)).trans hmag
    rw [if_neg (not_not.mpr hm), if_neg h1]
    by_cases h2 : 263 ≤ i ∧ i < 265
    · have hv2 : ¬ versionOk (H.set i b) := by
        intro hv2
        exact field_set_inside H 263 2 i b h2.1 (by omega) (by omega) hne (hv2.trans hver.symm)
      rw [if_pos hv2, if_pos h2]
    · have hv2 : versionOk (H.set i b) :=
        (field_set_outside H 263 2 i b (by omega)).trans hver
      have hne2 : declaredChecksum (H.set i b) ≠ compute_checksum (H.set i b) := by
        rw [declaredChecksum_set_outside H i b hc hout, hchk]
        exact (compute_checksum_set_outside H i b hlen hbytes hi hout hb hne).symm
      rw [if_neg (not_not.mpr hv2), if_pos hne2, if_neg h2]

/-- C20: on a stream whose length is a multiple of 512 and whose last block
is all-zero, when no read fails, `exists` terminates for every path: with
fuel for one iteration per block and two more (the read at the end of the
stream, which returns 0 bytes and leaves the zero block in the buffer, and
the final test of the loop), it returns a value. -/
theorem exists_terminates (fd : Fd) (buf path : List Nat) (n fuel : Nat)
    (hlen : fd.data.length = 512 * n) (hn : 0 < n)
    (hlast : blockAt fd.data (n - 1) = null_block) (herr : ∀ p, fd.err p = false)
    (hbuf : buf.length = 512) (hfuel : n + 2 ≤ fuel) :
    ∃ v fd', exists_ fuel fd buf path = some (v, fd') := by
  obtain ⟨r, hr⟩ := exists_loop_terminates path fd.data fd.err n hlen hn hlast herr (n - 1) 0 0
    buf fuel (by omega) hbuf (by omega)
  exact ⟨r.1, r.2, hr⟩

/-! ## Properties of `list` -/

/-- C13: let `bs` be the header blocks that `read_next_header` returns from
the current offset before its first end of archive, and `m` those whose name
starts with `path`, in order. With the capacity `c` (the incoming
`*no_entries`, at most the number of slots) and no failing read, `list` sets
`*no_entries` to `min c |m|`, stores in each slot `i < min c |m|` the `i`-th
name of `m` (as a C string: its characters cut to 99 bytes), and returns 1
if and only if `min c |m| > 0`, 0 otherwise. -/
theorem list_reports_matching (fd : Fd) (header path : List Nat)
    (entries : List (List Nat)) (c fuel : Nat) (bs : List (List Nat)) (tail : List Nat)
    (hbs : ∀ b ∈ bs, isHeaderBlock b)
    (hd : fd.data.drop fd.pos = blocksBytes bs ++ tail) (htail : endOfArchive tail)
    (herr : ∀ p, fd.err p = false) (hbuf : header.length = 512)
    (hc : c ≤ entries.length) (hfuel : bs.length < fuel) :
    ∃ r, list fuel fd header path entries c = some r ∧
      r.no_entries = min c (matching path bs).length ∧
      (r.ret = 1 ↔ 0 < min c (matching path bs).length) ∧ (r.ret = 0 ∨ r.ret = 1) ∧
      ∀ i, i < min c (matching path bs).length →
        r.entries.getD i [] =
          store_name (entries.getD i []) (name ((matching path bs).getD i [])) ∧
        cstr (r.entries.getD i []) = (cstr (name ((matching path bs).getD i []))).take 99 := by
  obtain ⟨fd', h⟩ := list_reach path c (fuel - bs.length - 1) fd header entries bs tail hbs hd
    htail herr hbuf
  have hf : fuel - bs.length - 1 + 1 + bs.length = fuel := by omega
  rw [hf] at h
  have hk := fillSlots_count path c bs entries 0 (Nat.zero_le _)
  rw [Nat.zero_add, ← matching_eq_filter] at hk
  refine ⟨_, h, hk, ?_, ?_, ?_⟩
  · show (if (fillSlots path c bs entries 0).2 > 0 then (1 : Int) else 0) = 1 ↔ _
    rw [hk]
    by_cases hp : min c (matching path bs).length > 0
    · rw [if_pos hp]; exact ⟨fun _ => hp, fun _ => rfl⟩
    · rw [if_neg hp]; exact ⟨fun h0 => absurd h0 (by decide), fun h0 => absurd h0 hp⟩
  · show (if (fillSlots path c bs entries 0).2 > 0 then (1 : Int) else 0) = 0 ∨
      (if (fillSlots path c bs entries 0).2 > 0 then (1 : Int) else 0) = 1
    by_cases hp : (fillSlots path c bs entries 0).2 > 0
    · rw [if_pos hp]; exact Or.inr rfl
    · rw [if_neg hp]; exact Or.inl rfl
  · intro i hi
    have hg := fillSlots_getD path c bs entries 0 i
    rw [Nat.zero_add, ← matching_eq_filter, Nat.sub_zero,
      if_pos ⟨Nat.zero_le _, hi, by omega⟩] at hg
    have hg' : (fillSlots path c bs entries 0).1.getD i [] =
        store_name (entries.getD i []) (name ((matching path bs).getD i [])) := hg
    refine ⟨hg', ?_⟩
    show cstr ((fillSlots path c bs entries 0).1.getD i []) = _
    rw [hg', cstr_store_name]

/-- C15: `list` changes only the output slots below the count that
`*no_entries` holds after the call: the number of slots is kept and every
slot `i` at or above that count holds the same bytes as before. In
particular, when the scan meets no header whose name starts with `path`
before the end of the archive, `list` returns 0, sets the count to 0 and
leaves every slot as it was. -/
theorem list_frame (fuel : Nat) (fd : Fd) (header path : List Nat)
    (entries : List (List Nat)) (c : Nat) :
    (∀ r, list fuel fd header path entries c = some r →
      r.entries.length = entries.length ∧
      ∀ i, r.no_entries ≤ i → r.entries.getD i [] = entries.getD i []) ∧
    (∀ (bs : List (List Nat)) (tail : List Nat), (∀ b ∈ bs, isHeaderBlock b) →
      fd.data.drop fd.pos = blocksBytes bs ++ tail → endOfArchive tail →
      (∀ p, fd.err p = false) → header.length = 512 → matching path bs = [] →
      bs.length < fuel →
      ∃ fd', list fuel fd header path entries c = some ⟨0, entries, 0, fd'⟩) := by
  constructor
  · intro r hr
    obtain ⟨h1, _, _, h4⟩ := list_loop_frame path c fuel fd header entries 0 r
      (Nat.zero_le _) hr
    exact ⟨h1, h4⟩
  · intro bs tail hbs hd htail herr hbuf hm hfuel
    obtain ⟨fd', h⟩ := list_reach path c (fuel - bs.length - 1) fd header entries bs tail hbs
      hd htail herr hbuf
    have hf : fuel - bs.length - 1 + 1 + bs.length = fuel := by omega
    rw [hf] at h
    rw [matching_eq_filter, List.filter_eq_nil_iff] at hm
    have hno : ∀ b ∈ bs, matchesPath path b = false := by
      intro b hb
      cases hx : matchesPath path b
      · rfl
      · exact absurd hx (hm b hb)
    rw [fillSlots_no_match path c bs entries 0 hno] at h
    exact ⟨fd', h⟩

theorem readAll_from (fd : Fd) (header path : List Nat) (cap fuel : Nat)
    (bs : List (List Nat)) (hdr content rest : List Nat)
    (hscan : ∀ b ∈ bs, skippable path b)
    (hd : fd.data = blocksBytes bs ++ (hdr ++ (content ++ rest)))
    (hh : isHeaderBlock hdr) (hname : strcmp_eq (name hdr) path = true)
    (hreg : isRegular hdr) (hcont : content.length = declaredSize hdr)
    (herr : ∀ p, fd.err p = false) (hlen : fd.data.length < 9223372036854775808)
    (hcap : 0 < cap) (hbuf : header.length = 512) (hfuel : bs.length < fuel) :
    ∀ (rounds offset : Nat) (dest acc : List Nat), offset < declaredSize hdr →
      declaredSize hdr - offset ≤ rounds → acc = content.take offset →
      readAll fuel fd header path cap rounds offset dest acc = some content := by
  intro rounds
  induction rounds with
  | zero => intro offset dest acc h1 h2 _; omega
  | succ n ih =>
    intro offset dest acc h1 h2 hacc
    have hr := read_file_chunk (lseek_set fd 0) header path dest offset cap fuel bs hdr
      content rest hscan (by show fd.data.drop 0 = _; rw [List.drop_zero, hd]) hh hname hreg
      hcont herr hlen h1 hbuf hfuel
    have hchunk : ((content.drop offset).take (min (declaredSize hdr - offset) cap)).length =
        min (declaredSize hdr - offset) cap := by
      rw [List.length_take, List.length_drop]; omega
    have htake : (overwrite dest ((content.drop offset).take
        (min (declaredSize hdr - offset) cap))).take (min (declaredSize hdr - offset) cap) =
        (content.drop offset).take (min (declaredSize hdr - offset) cap) := by
      unfold overwrite
      exact List.take_left' hchunk
    have hacc' : acc ++ (content.drop offset).take (min (declaredSize hdr - offset) cap) =
        content.take (offset + min (declaredSize hdr - offset) cap) := by
      rw [hacc, List.take_add]
    rw [readAll, hr]
    dsimp only
    rw [htake, hacc']
    by_cases h0 : (declaredSize hdr : Int) - (offset : Int) -
        ((min (declaredSize hdr - offset) cap : Nat) : Int) = 0
    · rw [if_pos h0]
      have : offset + min (declaredSize hdr - offset) cap = declaredSize hdr := by omega
      rw [this, ← hcont, List.take_length]
    · rw [if_neg h0, if_neg (by omega)]
      exact ih _ _ _ (by omega) (by omega) rfl

/-- C11 (amended): round trip. For a regular-file entry of size `S > 0`
that the scan of `read_file` reaches from offset 0, followed by its `S`
content bytes, and for every capacity `cap > 0`: calling `read_file` with
the offsets 0, then the previous offset plus the bytes written, the
descriptor being put back at offset 0 before each call, until it returns 0,
yields chunks whose concatenation is exactly the content of the entry. -/
theorem read_file_round_trip (fd : Fd) (header path dest : List Nat) (cap fuel rounds : Nat)
    (bs : List (List Nat)) (hdr content rest : List Nat)
    (hscan : ∀ b ∈ bs, skippable path b)
    (hd : fd.data = blocksBytes bs ++ (hdr ++ (content ++ rest)))
    (hh : isHeaderBlock hdr) (hname : strcmp_eq (name hdr) path = true)
    (hreg : isRegular hdr) (hcont : content.length = declaredSize hdr)
    (hsize : 0 < declaredSize hdr)
    (herr : ∀ p, fd.err p = false) (hlen : fd.data.length < 9223372036854775808)
    (hcap : 0 < cap) (hbuf : header.length = 512) (hfuel : bs.length < fuel)
    (hrounds : declaredSize hdr ≤ rounds) :
    readAll fuel fd header path cap rounds 0 dest [] = some content :=
  readAll_from fd header path cap fuel bs hdr content rest hscan hd hh hname hreg hcont herr
    hlen hcap hbuf hfuel rounds 0 dest [] hsize (by omega) (by rw [List.take_zero])

/-- C17 (amended): `list` and `read_file` scan from the current offset of
the descriptor, which they do not reset: their results depend on the bytes
of the stream from that offset on. For two descriptors that hold the same
bytes from their current offsets on (and whose reads fail at the same
places), `list` returns the same result, count and entries, and `read_file`
the same result, byte count and buffer contents. In particular a query on a
descriptor at offset `p` answers as it would on a freshly opened descriptor
on the bytes that follow `p`, and a query at offset 0 as on a freshly opened
one. -/
theorem list_read_file_from_current_offset (a b : Fd) (fuel : Nat)
    (header path : List Nat) (entries : List (List Nat)) (c offset : Nat)
    (dest : List Nat) (len : Nat) (h : sameFrom a b)
    (ha : a.data.length + offset < 9223372036854775808)
    (hb : b.data.length + offset < 9223372036854775808) :
    (list fuel a header path entries c).map (fun r => (r.ret, r.entries, r.no_entries)) =
      (list fuel b header path entries c).map (fun r => (r.ret, r.entries, r.no_entries)) ∧
    (read_file fuel a header path offset dest len).map (fun r => (r.ret, r.dest, r.len)) =
      (read_file fuel b header path offset dest len).map (fun r => (r.ret, r.dest, r.len)) :=
  ⟨list_loop_sameFrom path c fuel a b header entries 0 h,
    read_file_loop_sameFrom path offset dest len fuel a b header h ha hb⟩

/-! ## Evaluation on the sample archives -/

set_option maxRecDepth 8000

theorem octalDigits_length (w v : Nat) : (octalDigits w v).length = w := by
  induction w generalizing v with
  | zero => rfl
  | succ w ih => simp [octalDigits, ih]

theorem mkHeader_length (nm : List Nat) (flag sz : Nat) (h : nm.length ≤ 100) :
    (mkHeader nm flag sz).length = 512 := by
  simp only [mkHeader, rawHeader, pad, TMAGIC, octalDigits_length, List.length_append,
    List.length_replicate, List.length_cons, List.length_nil]
  omega

theorem dirHeader_length : dirHeader.length = 512 := mkHeader_length _ _ _ (by decide)

theorem fileHeader_length : fileHeader.length = 512 := mkHeader_length _ _ _ (by decide)

theorem sampleEntries_length : (archiveBytes sampleEntries).length = 2560 := by
  simp only [archiveBytes, entriesBytes, sampleEntries, dirHeader, fileHeader, fileContent,
    pad, List.length_append, List.length_replicate, List.length_cons, List.length_nil]
  rw [mkHeader_length _ _ _ (by decide), mkHeader_length _ _ _ (by decide)]

theorem sampleTwo_length : (dirHeader ++ fileHeader).length = 1024 := by
  rw [List.length_append, dirHeader_length, fileHeader_length]

theorem check_archive_counts_headers_witness :
    check_archive 3 ⟨archiveBytes sampleEntries, noErr, 0⟩ blank =
        some ((sampleEntries.length : Int),
          ⟨archiveBytes sampleEntries, noErr, (entriesBytes sampleEntries).length + 512⟩) ∧
      (sampleEntries.length : Int) ≠ -1 ∧ (sampleEntries.length : Int) ≠ -2 ∧
      (sampleEntries.length : Int) ≠ -3 :=
  check_archive_counts_headers sampleEntries noErr blank 3 (by decide) (fun _ => rfl)
    (by rw [sampleEntries_length]; decide) (by decide) (by decide) (by decide)

theorem check_archive_priority_witness :
    check_archive (0 + 1 + [(⟨dirHeader, []⟩ : Entry)].length)
        ⟨entriesBytes [⟨dirHeader, []⟩] ++ (badMagicHeader.set 263 49 ++ []), noErr, 0⟩ blank =
      some (-1, ⟨entriesBytes [⟨dirHeader, []⟩] ++ (badMagicHeader.set 263 49 ++ []), noErr,
        (entriesBytes [⟨dirHeader, []⟩]).length + 512⟩) :=
  (check_archive_priority [⟨dirHeader, []⟩] (badMagicHeader.set 263 49) [] noErr blank 0
    (by decide) (by decide) (fun _ => rfl)
    (by simp only [entriesBytes, List.length_append, List.length_nil, dirHeader_length]; decide)
    (by decide) (by decide)).1 (by decide)

/-- C3 (as stated, refuted): the archive made of the header of "d/" with its
version changed to "10", then the header of "d/f" with a corrupted magic,
then the terminator, contains a header whose magic is corrupted, and
`check_archive` returns -2 on it, not -1. -/
theorem check_archive_bad_magic_after_bad_version :
    isHeaderBlock (blockAt (badVersionHeader ++ badMagicHeader ++ List.replicate 1024 0) 1) ∧
    ¬ magicOk (blockAt (badVersionHeader ++ badMagicHeader ++ List.replicate 1024 0) 1) ∧
    (check_archive 4 ⟨badVersionHeader ++ badMagicHeader ++ List.replicate 1024 0, noErr, 0⟩
      blank).map Prod.fst = some (-2) := by
  refine ⟨?_, ?_, ?_⟩ <;> decide

theorem check_archive_first_failure_magic_witness :
    check_archive 2
        ⟨entriesBytes [⟨dirHeader, []⟩] ++ (badMagicHeader ++ badVersionHeader), noErr, 0⟩
        blank =
      some (-1, ⟨entriesBytes [⟨dirHeader, []⟩] ++ (badMagicHeader ++ badVersionHeader), noErr,
        (entriesBytes [⟨dirHeader, []⟩]).length + 512⟩) :=
  check_archive_first_failure_magic [⟨dirHeader, []⟩] badMagicHeader badVersionHeader noErr
    blank 2 (by decide) (by decide) (by decide) (fun _ => rfl)
    (by simp only [entriesBytes, List.length_append, List.length_nil, dirHeader_length]; decide)
    (by decide) (by decide) (by decide)

/-- C4 (as stated, refuted): two changes of one byte of the checksum field
that `check_archive` does not notice. On the archive made of the valid
header of "d/" and the terminator, changing the last byte of the field
(offset 155, the space after the NUL that ends the digits) leaves the value
of `TAR_INT` as it was, and `check_archive` still returns the count 1, not
-3. On the archive made of the valid header of "c" and the terminator,
changing the first byte of the field (offset 148) from the digit 4 to the
digit 0 changes the value of `TAR_INT` from 2^32 + 2560 to 2560, which is
the same `unsigned int`, and `check_archive` still returns the count 1. -/
theorem check_archive_checksum_padding_unnoticed :
    (ValidHeader dirHeader ∧ dirHeader.getD 155 0 ≠ 88 ∧
      TAR_INT (chksum (dirHeader.set 155 88)) = TAR_INT (chksum dirHeader) ∧
      (check_archive 3 ⟨dirHeader.set 155 88 ++ List.replicate 1024 0, noErr, 0⟩
        blank).map Prod.fst = some 1) ∧
    (ValidHeader wideChksumHeader ∧ wideChksumHeader.getD 148 0 = 52 ∧
      TAR_INT (chksum wideChksumHeader) = 4294969856 ∧
      TAR_INT (chksum (wideChksumHeader.set 148 48)) = 2560 ∧
      declaredChecksum (wideChksumHeader.set 148 48) = declaredChecksum wideChksumHeader ∧
      (check_archive 3 ⟨wideChksumHeader.set 148 48 ++ List.replicate 1024 0, noErr, 0⟩
        blank).map Prod.fst = some 1) := by
  refine ⟨⟨?_, ?_, ?_, ?_⟩, ⟨?_, ?_, ?_, ?_, ?_, ?_⟩⟩ <;> decide

theorem check_archive_checksum_tamper_witness :
    check_archive 1 ⟨dirHeader.set 153 56 ++ List.replicate 1024 0, noErr, 0⟩ blank =
      some (-3, ⟨dirHeader.set 153 56 ++ List.replicate 1024 0, noErr, 512⟩) :=
  check_archive_checksum_tamper dirHeader 153 56 noErr blank 1 (by decide) (by decide)
    (by decide) (by decide) rfl (by decide) (by decide)

/-- C5 (evaluation of the code): the archive that holds the FIFO "p" (type
flag 6) and the terminator is accepted by `check_archive` with one header,
the name of its first block equals the path "p", and `exists` returns 0 for
that path: the `switch` has no case for this type flag. -/
theorem exists_misses_fifo_entry :
    (check_archive 3 ⟨fifoArchive, noErr, 0⟩ blank).map Prod.fst = some 1 ∧
    strcmp_eq [112] (name (blockAt fifoArchive 0)) = true ∧
    (exists_ 3 ⟨fifoArchive, noErr, 0⟩ blank [112]).map Prod.fst = some 0 := by
  refine ⟨?_, ?_, ?_⟩ <;> decide

theorem exists_classifies_first_match_witness :
    exists_ 2 ⟨dirHeader ++ fileHeader, noErr, 7⟩ blank [100, 47, 102] =
      some (1, ⟨dirHeader ++ fileHeader, noErr, 512 * (1 + 1)⟩) :=
  (exists_classifies_first_match ⟨dirHeader ++ fileHeader, noErr, 7⟩ blank [100, 47, 102] 1 2
    (by show 512 * (1 + 1) ≤ (dirHeader ++ fileHeader).length
        rw [sampleTwo_length])
    (fun _ => rfl) (by decide) (by decide)
    (by intro j hj
        have hj0 : j = 0 := by omega
        subst hj0
        decide)
    (by intro j hj; omega) (by decide) (by decide)).1 (by decide)

theorem is_file_is_dir_is_symlink_project_witness :
    ∃ f fd', is_file 2 ⟨dirHeader ++ fileHeader, noErr, 3⟩ blank [100, 47, 102] =
      some (f, fd') ∧ f ≠ 0 :=
  (is_file_is_dir_is_symlink_project 2 (dirHeader ++ fileHeader) noErr 3 5 9 blank
    dirHeader fileHeader [100, 47, 102]
    (Or.inr ⟨by rw [sampleTwo_length]; decide, by decide, dirHeader_length,
      fileHeader_length⟩)).1.2 ⟨⟨dirHeader ++ fileHeader, noErr, 1024⟩, by rfl⟩

theorem exists_repeatable_witness :
    exists_ 2 ⟨dirHeader ++ fileHeader, noErr, 1024⟩ blank [100, 47, 102] =
      some (1, ⟨dirHeader ++ fileHeader, noErr, 1024⟩) :=
  (exists_repeatable 2 (dirHeader ++ fileHeader) noErr 0 512 blank dirHeader blank
    [100, 47, 102] (by rw [sampleTwo_length]; decide) (by decide) dirHeader_length
    (by decide)).2 1 ⟨dirHeader ++ fileHeader, noErr, 1024⟩ (by rfl)

theorem helloStream_length : helloStream.length = 1029 := by
  simp only [helloStream, List.length_append, dirHeader_length, fileHeader_length,
    List.length_cons, List.length_nil]

theorem read_file_reads_range_witness :
    ∃ r, read_file 2 ⟨helloStream, noErr, 0⟩ blank [100, 47, 102] 1 [9, 9, 9, 9, 9, 9] 3 =
        some r ∧
      r.len = min (declaredSize fileHeader - 1) 3 ∧
      r.dest.take r.len = (List.drop 1 [104, 101, 108, 108, 111]).take r.len ∧
      r.dest.drop r.len = List.drop r.len [9, 9, 9, 9, 9, 9] ∧
      r.ret = (declaredSize fileHeader : Int) - ((1 : Nat) : Int) - (r.len : Int) ∧
      (r.ret = 0 ↔ 1 + r.len = declaredSize fileHeader) ∧ 0 ≤ r.ret :=
  read_file_reads_range ⟨helloStream, noErr, 0⟩ blank [100, 47, 102] [9, 9, 9, 9, 9, 9] 1 3 2
    [dirHeader] fileHeader [104, 101, 108, 108, 111] []
    (by decide) (by simp only [helloStream, blocksBytes, List.append_nil, List.drop_zero])
    (by decide) (by decide) (by decide) (by decide) (fun _ => rfl)
    (by rw [helloStream_length]; decide) (by decide) (by decide) (by decide)

theorem read_file_offset_out_of_range_witness :
    read_file 2 ⟨dirHeader ++ (emptyFileHeader ++ []), noErr, 0⟩ blank [101] 0 [9, 9] 2 =
      some ⟨-2, [9, 9], 2, ⟨dirHeader ++ (emptyFileHeader ++ []), noErr, 0 + 512 * 1 + 512⟩⟩ :=
  read_file_offset_out_of_range ⟨dirHeader ++ (emptyFileHeader ++ []), noErr, 0⟩ blank [101]
    [9, 9] 0 2 2 [dirHeader] emptyFileHeader []
    (by decide) (by simp only [blocksBytes, List.append_nil, List.drop_zero])
    (by decide) (by decide) (by decide) (fun _ => rfl) (by decide) (by decide) (by decide)

theorem sample_chksum_fields :
    (chksum dirHeader).take 8 = [48, 48, 52, 55, 50, 53, 0, 32] ∧
    (chksum fileHeader).take 8 = [48, 48, 53, 48, 55, 51, 0, 32] ∧
    (chksum fifoHeader).take 8 = [48, 48, 52, 54, 54, 51, 0, 32] ∧
    compute_checksum dirHeader = 2517 := by
  refine ⟨?_, ?_, ?_, ?_⟩ <;> decide

theorem fifoArchive_length : fifoArchive.length = 512 * 3 := by
  simp only [fifoArchive, fifoHeader, List.length_append, List.length_replicate]
  rw [mkHeader_length _ _ _ (by decide)]

/-- C11 (as stated, refuted): on the valid sample archive, with a buffer of
3 bytes, the first call of `read_file` for "d/f" (5 bytes) returns 2 and
leaves the descriptor at offset 1027, inside the content; the next call on
that descriptor, with offset 3, returns -1: the loop never returns 0 and
only 3 of the 5 bytes are obtained. -/
theorem read_file_second_call_not_found :
    (check_archive 4 ⟨archiveBytes sampleEntries, noErr, 0⟩ blank).map Prod.fst = some 2 ∧
    read_file 4 ⟨archiveBytes sampleEntries, noErr, 0⟩ blank [100, 47, 102] 0 [9, 9, 9] 3 =
      some ⟨2, [104, 101, 108], 3, ⟨archiveBytes sampleEntries, noErr, 1027⟩⟩ ∧
    (read_file 4 ⟨archiveBytes sampleEntries, noErr, 1027⟩ blank [100, 47, 102] 3
      [104, 101, 108] 3).map (fun r => r.ret) = some (-1) := by
  refine ⟨by decide, by rfl, by decide⟩

theorem read_file_round_trip_witness :
    readAll 2 ⟨helloStream, noErr, 7⟩ blank [100, 47, 102] 2 5 0 [9, 9] [] =
      some [104, 101, 108, 108, 111] :=
  read_file_round_trip ⟨helloStream, noErr, 7⟩ blank [100, 47, 102] [9, 9] 2 2 5
    [dirHeader] fileHeader [104, 101, 108, 108, 111] []
    (by decide) (by simp only [helloStream, blocksBytes, List.append_nil])
    (by decide) (by decide) (by decide) (by decide) (by decide) (fun _ => rfl)
    (by rw [helloStream_length]; decide) (by decide) (by decide) (by decide) (by decide)

/-- C12 (evaluation of the code): the archive made of the file "a", whose
single content byte is NUL, and of the file "b" holding "hello", is accepted
by `check_archive` with two headers; its third block is the header of the
regular file "b"; and `read_file` for "b" from offset 0 returns -1: the scan
takes the content block of "a", which starts with NUL, for the end of the
archive. -/
theorem read_file_misses_entry_after_nul_content :
    (check_archive 5 ⟨nulFirstArchive, noErr, 0⟩ blank).map Prod.fst = some 2 ∧
    strcmp_eq (name (blockAt nulFirstArchive 2)) [98] = true ∧
    isRegular (blockAt nulFirstArchive 2) ∧
    (read_file 5 ⟨nulFirstArchive, noErr, 0⟩ blank [98] 0 (List.replicate 8 0) 8).map
      (fun r => r.ret) = some (-1) := by
  refine ⟨?_, ?_, ?_, ?_⟩ <;> decide

theorem list_reports_matching_witness :
    ∃ r, list 4 ⟨testdirArchive, noErr, 0⟩ blank testdirName (slots 10) 10 = some r ∧
      r.no_entries = 2 ∧ r.ret = 1 := by
  obtain ⟨r, h1, h2, h3, _, _⟩ := list_reports_matching ⟨testdirArchive, noErr, 0⟩ blank
    testdirName (slots 10) 10 4 [testdirHeader, testfileHeader, fileContent]
    (List.replicate 1024 0) (by decide)
    (by simp only [testdirArchive, blocksBytes, List.append_nil, List.drop_zero,
      List.append_assoc])
    (Or.inr (by decide)) (fun _ => rfl) (by decide) (by decide) (by decide)
  have hm : (matching testdirName [testdirHeader, testfileHeader, fileContent]).length = 2 := by
    decide
  rw [hm] at h2 h3
  exact ⟨r, h1, h2, h3.2 (by decide)⟩

/-- C14 (evaluation of the code): on the archive of the doc comment of
`list` (dir/, dir/a, dir/b, dir/c/, dir/c/d, dir/e/), which `check_archive`
accepts with six headers, `list` for "dir/" with 8 slots returns 1 and
reports six names: the four children, and also "dir/" itself and the
grandchild "dir/c/d". -/
theorem list_reports_descendants :
    (check_archive 8 ⟨treeArchive, noErr, 0⟩ blank).map Prod.fst = some 6 ∧
    (list 8 ⟨treeArchive, noErr, 0⟩ blank dirName (slots 8) 8).map
        (fun r => (r.ret, r.no_entries, (r.entries.take r.no_entries).map cstr)) =
      some (1, 6, [[100, 105, 114, 47], [100, 105, 114, 47, 97], [100, 105, 114, 47, 98],
        [100, 105, 114, 47, 99, 47], [100, 105, 114, 47, 99, 47, 100],
        [100, 105, 114, 47, 101, 47]]) := by
  refine ⟨?_, ?_⟩ <;> decide

theorem list_frame_witness :
    ∃ fd', list 3 ⟨fifoArchive, noErr, 0⟩ blank [122, 122] (slots 2) 2 =
      some ⟨0, slots 2, 0, fd'⟩ :=
  (list_frame 3 ⟨fifoArchive, noErr, 0⟩ blank [122, 122] (slots 2) 2).2 [fifoHeader]
    (List.replicate 1024 0) (by decide)
    (by simp only [fifoArchive, blocksBytes, List.append_nil, List.drop_zero])
    (Or.inr (by decide)) (fun _ => rfl) (by decide) (by decide) (by decide)

theorem compute_checksum_formula_witness : compute_checksum dirHeader ≤ 504 * 255 + 256 :=
  (compute_checksum_formula dirHeader dirHeader_length (by decide)).2.2.1

/-- C17 (as stated, refuted): on the valid sample archive the answers of
`list` and of `read_file` differ with the offset of the descriptor: from
offset 0 `list` for "d/" counts 2 entries and `read_file` reads the 5 bytes
of "d/f"; from offset 1029, where that call of `read_file` leaves the
descriptor, `list` counts nothing and `read_file` returns -1. -/
theorem list_read_file_depend_on_offset :
    (list 5 ⟨archiveBytes sampleEntries, noErr, 0⟩ blank [100, 47] (slots 2) 2).map
      (fun r => (r.ret, r.no_entries)) = some (1, 2) ∧
    (list 5 ⟨archiveBytes sampleEntries, noErr, 1029⟩ blank [100, 47] (slots 2) 2).map
      (fun r => (r.ret, r.no_entries)) = some (0, 0) ∧
    (read_file 5 ⟨archiveBytes sampleEntries, noErr, 0⟩ blank [100, 47, 102] 0
      (List.replicate 8 0) 8).map (fun r => (r.ret, r.len, r.fd.pos)) = some (0, 5, 1029) ∧
    (read_file 5 ⟨archiveBytes sampleEntries, noErr, 1029⟩ blank [100, 47, 102] 0
      (List.replicate 8 0) 8).map (fun r => (r.ret, r.len)) = some (-1, 8) := by
  refine ⟨?_, ?_, ?_, ?_⟩ <;> decide

theorem list_read_file_from_current_offset_witness :
    (list 3 ⟨helloStream, noErr, 512⟩ blank [100, 47] (slots 2) 2).map
        (fun r => (r.ret, r.entries, r.no_entries)) =
      (list 3 ⟨helloStream.drop 512, noErr, 0⟩ blank [100, 47] (slots 2) 2).map
        (fun r => (r.ret, r.entries, r.no_entries)) ∧
    (read_file 3 ⟨helloStream, noErr, 512⟩ blank [100, 47, 102] 1 [9, 9] 2).map
        (fun r => (r.ret, r.dest, r.len)) =
      (read_file 3 ⟨helloStream.drop 512, noErr, 0⟩ blank [100, 47, 102] 1 [9, 9] 2).map
        (fun r => (r.ret, r.dest, r.len)) :=
  list_read_file_from_current_offset ⟨helloStream, noErr, 512⟩ ⟨helloStream.drop 512, noErr, 0⟩
    3 blank [100, 47, 102] (slots 2) 2 1 [9, 9] 2 ⟨rfl, fun _ => rfl⟩
    (by show helloStream.length + 1 < _; rw [helloStream_length]; decide)
    (by show (helloStream.drop 512).length + 1 < _
        rw [List.length_drop, helloStream_length]; decide)

theorem check_archive_detects_byte_change_witness :
    check_archive 1 ⟨dirHeader.set 0 101 ++ [], noErr, 0⟩ blank =
      some (if 257 ≤ 0 ∧ 0 < 263 then -1 else if 263 ≤ 0 ∧ 0 < 265 then -2 else -3,
        ⟨dirHeader.set 0 101 ++ [], noErr, 512⟩) :=
  check_archive_detects_byte_change dirHeader [] 0 101 noErr blank 1 (by decide) (by decide)
    (by decide) (by decide) (by decide) (by decide) (by decide) (by decide) rfl (by decide)
    (by decide)

/-- C19 (evaluation of the code): the header of the regular file "n" holds
"-2001" in its size field, which decodes to the size `2^64 - 1025`; it is a
valid header. The two streams made of this header followed by an all-zero
block, and by a block that starts with the character x, have the same
length and the same first block, so that they differ only in the content
region of "n"; on the first `check_archive` returns 1, on the second -1:
the seek that skips the content fails, and the block is read as a header. -/
theorem check_archive_reads_content_when_seek_fails :
    ValidHeader negSizeHeader ∧ isRegular negSizeHeader ∧
    declaredSize negSizeHeader = 18446744073709550591 ∧
    (negSizeHeader ++ List.replicate 512 0).length = (negSizeHeader ++ xBlock).length ∧
    (negSizeHeader ++ List.replicate 512 0).take 512 = (negSizeHeader ++ xBlock).take 512 ∧
    (check_archive 3 ⟨negSizeHeader ++ List.replicate 512 0, noErr, 0⟩ blank).map Prod.fst =
      some 1 ∧
    (check_archive 3 ⟨negSizeHeader ++ xBlock, noErr, 0⟩ blank).map Prod.fst = some (-1) := by
  refine ⟨?_, ?_, ?_, ?_, ?_, ?_, ?_⟩ <;> decide

theorem exists_terminates_witness :
    ∃ v fd', exists_ 5 ⟨fifoArchive, noErr, 5⟩ blank [113] = some (v, fd') :=
  exists_terminates ⟨fifoArchive, noErr, 5⟩ blank [113] 3 5 fifoArchive_length (by decide)
    (by decide) (fun _ => rfl) (by decide) (by decide)

end LibTar
